import Mathlib

/-!
Shallow embedding of the reactive store core (src/src/store.ts).

Modelling conventions:
- JS objects and arrays live in an explicit heap indexed by natural-number
  addresses, so reference identity, cycles and in-place mutation are explicit.
- A value is undefined, a number, or a reference to a heap address; other
  primitives, functions and accessor (getter) properties are not modelled
  (no claim depends on them; the code paths guarded by typeof-function and
  descriptor-getter checks are vacuously taken).
- Proxies are heap objects of their own (HObj.prox target); the reserved
  symbol markers of the source are modelled structurally: the PROXY marker
  is the Obj.proxy field, the NODE marker (cell registry) is the Obj.cells
  field, and the RAW back-reference is the prox constructor itself.
- JS array length bookkeeping is explicit: the len field, maintained by
  rawWrite exactly as JS assignment maintains array length.
- Operations that throw in the source (defineProperty on a frozen object,
  strict-mode assignment or delete on a frozen object, delete of an array
  length) return none; unwrap takes a fuel bound and returns none when the
  source would recurse beyond it (the source diverges on frozen cycles).
-/

namespace ReactiveStore

inductive Val where
  | undef : Val
  | num : Nat → Val
  | ref : Nat → Val
deriving DecidableEq

inductive Key where
  | str : String → Key
  | idx : Nat → Key
deriving DecidableEq

/-- The key under which the source stores the reserved whole-object cell:
nodes._ is an ordinary string property of the registry object, so it shares
the key space with a user property named "_". -/
def selfKey : Key := Key.str "_"

/-- The own property names of Object.prototype.  The registry object of the
source is a plain object literal, so nodes[property] for one of these names
finds the inherited member (a function, or the prototype itself for
__proto__) instead of a cell. -/
def protoKeys : List String :=
  ["constructor", "hasOwnProperty", "isPrototypeOf", "propertyIsEnumerable",
   "toLocaleString", "toString", "valueOf", "__proto__",
   "__defineGetter__", "__defineSetter__", "__lookupGetter__", "__lookupSetter__"]

/-- Whether a key names an Object.prototype member (always truthy when read
through the prototype chain of a plain object). -/
def protoMember : Key → Bool
  | Key.str s => decide (s ∈ protoKeys)
  | Key.idx _ => false

/-- A reactive cell: a signal with equality disabled.  Its observable state
is the stored payload and the number of times it has fired. -/
structure Cell where
  payload : Val
  fires : Nat
deriving DecidableEq

/-- The cell registry (the $NODE object of the source): a plain JS object
mapping property keys to cells.  The reserved self cell is its entry at
selfKey. -/
abbrev Registry := List (Key × Cell)

/-- Association-list lookup. -/
def alook {α β : Type} [DecidableEq α] : List (α × β) → α → Option β
  | [], _ => none
  | (k, v) :: t, k' => if k = k' then some v else alook t k'

/-- Association-list update, appending at the end when the key is new
(matching JS property insertion order). -/
def aset {α β : Type} [DecidableEq α] : List (α × β) → α → β → List (α × β)
  | [], k, v => [(k, v)]
  | (k', v') :: t, k, v => if k' = k then (k, v) :: t else (k', v') :: aset t k v

/-- Association-list removal. -/
def aerase {α β : Type} [DecidableEq α] : List (α × β) → α → List (α × β)
  | [], _ => []
  | (k', v') :: t, k => if k' = k then aerase t k else (k', v') :: aerase t k

/-- A raw object or array: the RawNode of the spec, together with the
reserved bookkeeping markers the source attaches to it. -/
structure Obj where
  arr : Bool
  frozen : Bool
  len : Nat
  props : List (Key × Val)
  proxy : Option Nat
  cells : Option Registry
deriving DecidableEq

inductive HObj where
  | obj : Obj → HObj
  | prox : Nat → HObj
deriving DecidableEq

structure Heap where
  mem : List (Nat × HObj)
deriving DecidableEq

def Heap.get (h : Heap) (a : Nat) : Option HObj := alook h.mem a

def Heap.set (h : Heap) (a : Nat) (x : HObj) : Heap := ⟨aset h.mem a x⟩

/-- A heap address not yet in use. -/
def Heap.fresh (h : Heap) : Nat := (h.mem.map (fun p => p.1)).foldr max 0 + 1

/-- Global interpreter state: the heap, the write-enabled gate, whether a
tracking context is active, and the dependencies that context has recorded. -/
structure St where
  heap : Heap
  writing : Bool
  reaction : Bool
  deps : List (Nat × Key)
deriving DecidableEq

/-- Reading property k directly on a raw object (target[k] in the source). -/
def rawRead (o : Obj) (k : Key) : Val :=
  if o.arr = true ∧ k = Key.str "length" then Val.num o.len
  else (alook o.props k).getD Val.undef

def isIdxKey : Key → Bool
  | Key.idx _ => true
  | Key.str _ => false

/-- Plain JS assignment target[k] = v on a raw object; none models the
strict-mode TypeError on frozen objects and a non-numeric array length. -/
def rawWrite (o : Obj) (k : Key) (v : Val) : Option Obj :=
  if o.frozen then none
  else if o.arr then
    if k = Key.str "length" then
      match v with
      | Val.num n =>
        some { o with
                len := n
                props := o.props.filter (fun q =>
                  match q.1 with
                  | Key.idx i => decide (i < n)
                  | Key.str _ => true) }
      | _ => none
    else
      match k with
      | Key.idx i => some { o with len := max o.len (i + 1), props := aset o.props k v }
      | Key.str _ => some { o with props := aset o.props k v }
  else some { o with props := aset o.props k v }

/-- Plain JS delete target[k]; none models the strict-mode TypeError on a
non-configurable property (array length, own property of a frozen object). -/
def rawDelete (o : Obj) (k : Key) : Option Obj :=
  if o.arr = true ∧ k = Key.str "length" then none
  else if o.frozen = true ∧ (alook o.props k).isSome = true then none
  else some { o with props := aerase o.props k }

/-- getDataNodes: the cell registry of the object, created on first access;
creation throws (none) when the object is frozen, because the source
attaches the registry with Object.defineProperty. -/
def ensureRegistry (o : Obj) : Option Registry :=
  match o.cells with
  | some r => some r
  | none => if o.frozen then none else some []

/-- getDataNode of the source: nodes[property] || (nodes[property] =
createDataNode(value)).  The lookup nodes[property] consults the prototype
chain of the plain registry object: for a key naming an Object.prototype
member it finds the inherited member — a non-cell whose .$ is not callable,
so the subsequent node.$(...) throws (none). -/
def getDataNode (reg : Registry) (k : Key) (seed : Val) : Option (Cell × Registry) :=
  match alook reg k with
  | some c => some (c, reg)
  | none =>
    if protoMember k then none
    else some (⟨seed, 0⟩, aset reg k ⟨seed, 0⟩)

/-- The create-if-absent-and-fire effect of getDataNode followed by
node.$(() => p), for keys where getDataNode yields a cell. -/
def touch (reg : Registry) (k : Key) (seed p : Val) : Registry :=
  match alook reg k with
  | some c => aset reg k ⟨p, c.fires + 1⟩
  | none => aset (aset reg k ⟨seed, 0⟩) k ⟨p, 0 + 1⟩

/-- The length-cell step of setProperty: when an array's length changed,
fire the length cell, creating it seeded with the previous length
("length" never names an Object.prototype member, so this getDataNode
cannot throw). -/
def fireStep2 (o₁ : Obj) (oldLen : Nat) (reg₁ : Registry) : Registry :=
  if o₁.arr = true ∧ o₁.len ≠ oldLen then
    touch reg₁ (Key.str "length") (Val.num oldLen) (Val.num o₁.len)
  else reg₁

/-- The final step of setProperty, (node = nodes._) && node.$(): fire the
cell at the reserved key "_" if it exists.  When the written property was
itself "_", this fires the cell just fired for the property a second time. -/
def fireSelf (reg : Registry) : Registry :=
  match alook reg selfKey with
  | some c => aset reg selfKey ⟨Val.undef, c.fires + 1⟩
  | none => reg

/-- The cell registry after the firing sequence of a setProperty whose
getDataNode succeeded: fire the cell of the written property (creating it
seeded with the previous value), fire the length cell when an array's
length changed, and fire the cell at "_" when it exists. -/
def fireSequence (o₁ : Obj) (oldLen : Nat) (k : Key) (prev v : Val) (reg : Registry) : Registry :=
  fireSelf (fireStep2 o₁ oldLen (touch reg k prev v))

/-- setProperty of the source: the guarded mutation entry point.  none
models a thrown TypeError: a frozen raw mutation, a frozen registry
attachment, or getDataNode returning an inherited Object.prototype member
on which node.$(...) is not callable. -/
def setProperty (st : St) (a : Nat) (k : Key) (v : Val) (deleting : Bool) : Option St :=
  match st.heap.get a with
  | some (HObj.obj o) =>
    if deleting = false ∧ rawRead o k = v then some st
    else
      let prev := rawRead o k
      let oldLen := o.len
      match (if deleting then rawDelete o k else rawWrite o k v) with
      | none => none
      | some o₁ =>
        match ensureRegistry o₁ with
        | none => none
        | some reg =>
          match getDataNode reg k prev with
          | none => none
          | some cr =>
            let x := HObj.obj { o₁ with cells := some (fireSelf (fireStep2 o₁ oldLen
              (aset cr.2 k ⟨v, cr.1.fires + 1⟩))) }
            some { st with heap := st.heap.set a x }
  | _ => none

/-- wrap of the source: return the cached view, or create one, cache it on
the node, and return it; none models the TypeError of defining the cache
marker on a frozen node. -/
def wrapV (h : Heap) (b : Nat) : Option (Heap × Nat) :=
  match h.get b with
  | some (HObj.prox _) => some (h, b)
  | some (HObj.obj o) =>
    match o.proxy with
    | some p => some (h, p)
    | none =>
      if o.frozen then none
      else
        let p := h.fresh
        some (((h.set b (HObj.obj { o with proxy := some p })).set p (HObj.prox b)), p)
  | none => none

/-- trackSelf of the source: with an active tracking context, materialize
and read the reserved cell nodes._ (seeded undefined), recording the
dependency.  The source accesses nodes._ directly, not via getDataNode. -/
def trackSelf (st : St) (a : Nat) : Option St :=
  if st.reaction then
    match st.heap.get a with
    | some (HObj.obj o) =>
      match ensureRegistry o with
      | none => none
      | some reg =>
        let reg₁ := match alook reg selfKey with
          | some _ => reg
          | none => aset reg selfKey ⟨Val.undef, 0⟩
        some { st with
          heap := st.heap.set a (HObj.obj { o with cells := some reg₁ })
          deps := (a, selfKey) :: st.deps }
    | _ => none
  else some st

/-- The ownKeys trap: trackSelf, then the raw key list. -/
def ownKeysTrap (st : St) (a : Nat) : Option (St × List Key) :=
  match trackSelf st a with
  | some st₁ =>
    match st₁.heap.get a with
    | some (HObj.obj o) =>
      some (st₁, o.props.map (fun p => p.1) ++ (if o.arr then [Key.str "length"] else []))
    | _ => none
  | none => none

/-- The final step of the get trap: wrap the value when it is wrappable. -/
def finishRead (st : St) (v : Val) : Option (St × Val) :=
  match v with
  | Val.ref b =>
    if (st.heap.get b).isSome then
      match wrapV st.heap b with
      | some (h₁, q) => some ({ st with heap := h₁ }, Val.ref q)
      | none => none
    else some (st, v)
  | _ => some (st, v)

/-- The get trap of the source for an ordinary property key: consult the
registry's own keys (nodes.hasOwnProperty — this includes the reserved "_"
cell once trackSelf has created it), read through an existing cell, lazily
create one on a tracked first read, and wrap the result.  A tracked first
read of an Object.prototype member name skips cell creation: the source's
typeof-function guard fails there (the value it would call is the inherited
method; the string it returns is not modelled, and no claim mentions it). -/
def getTrap (st : St) (a : Nat) (k : Key) : Option (St × Val) :=
  match st.heap.get a with
  | some (HObj.obj o) =>
    match ensureRegistry o with
    | none => none
    | some reg =>
      match alook reg k with
      | some c =>
        let st₁ : St := { st with
          heap := st.heap.set a (HObj.obj { o with cells := some reg })
          deps := if st.reaction then (a, k) :: st.deps else st.deps }
        if k = Key.str "__proto__" then some (st₁, c.payload)
        else finishRead st₁ c.payload
      | none =>
        let v := rawRead o k
        if k = Key.str "__proto__" then
          some ({ st with heap := st.heap.set a (HObj.obj { o with cells := some reg }) }, v)
        else if st.reaction = true ∧ protoMember k = false then
          let reg₁ := aset reg k ⟨v, 0⟩
          let st₁ : St := { st with
            heap := st.heap.set a (HObj.obj { o with cells := some reg₁ })
            deps := (a, k) :: st.deps }
          finishRead st₁ v
        else
          finishRead { st with heap := st.heap.set a (HObj.obj { o with cells := some reg }) } v
  | _ => none

/-- In-place assignment performed by unwrap when a child changed identity
(item[prop] = unwrapped); total because unwrap only writes to non-frozen
nodes or to its own fresh copies. -/
def writeRawNoThrow (h : Heap) (a : Nat) (k : Key) (v : Val) : Heap :=
  match h.get a with
  | some (HObj.obj o) => h.set a (HObj.obj { o with props := aset o.props k v })
  | _ => h

/-- The element/property loop of unwrap, parameterized by the recursive
call used on children. -/
def unwrapItemsWith (u : Heap → Val → List Nat → Option (Heap × Val × List Nat)) :
    Heap → Nat → List Key → List Nat → Option (Heap × List Nat)
  | h, _, [], vis => some (h, vis)
  | h, a, k :: rest, vis =>
    match h.get a with
    | some (HObj.obj o) =>
      match u h (rawRead o k) vis with
      | some (h₁, v₁, vis₁) =>
        unwrapItemsWith u (if v₁ = rawRead o k then h₁ else writeRawNoThrow h₁ a k v₁) a rest vis₁
      | none => none
    | _ => none

/-- unwrap of the source: strip views back to raw data.  A view returns its
raw node at once; an already-visited node is not re-traversed; a frozen
node is shallow-copied and the copy processed instead; otherwise the node
is marked visited and its children unwrapped in place.  The fuel bounds the
nesting depth explored; none models the divergence of the source on a
frozen cycle deeper than the fuel. -/
def unwrap : Nat → Heap → Val → List Nat → Option (Heap × Val × List Nat)
  | fuel, h, Val.ref a, vis =>
    match h.get a with
    | some (HObj.prox t) => some (h, Val.ref t, vis)
    | some (HObj.obj o) =>
      if a ∈ vis then some (h, Val.ref a, vis)
      else
        match fuel with
        | 0 => none
        | f + 1 =>
          let ks := if o.arr then (List.range o.len).map Key.idx else o.props.map (fun p => p.1)
          if o.frozen then
            let c := h.fresh
            let copy : Obj := { arr := o.arr
                                frozen := false
                                len := o.len
                                props := (if o.arr then o.props.filter (fun q => isIdxKey q.1) else o.props)
                                proxy := none
                                cells := none }
            match unwrapItemsWith (fun h' v' vis' => unwrap f h' v' vis')
                (h.set c (HObj.obj copy)) c ks vis with
            | some (h₂, vis₂) => some (h₂, Val.ref c, vis₂)
            | none => none
          else
            match unwrapItemsWith (fun h' v' vis' => unwrap f h' v' vis') h a ks (a :: vis) with
            | some (h₂, vis₂) => some (h₂, Val.ref a, vis₂)
            | none => none
    | none => some (h, Val.ref a, vis)
  | _, h, v, vis => some (h, v, vis)

/-- The set trap: a silent no-op unless the write gate is open; when open,
forward the unwrapped value to setProperty.  The Bool is the trap result. -/
def trapSet (fuel : Nat) (st : St) (a : Nat) (k : Key) (v : Val) : Option (St × Bool) :=
  if st.writing then
    match unwrap fuel st.heap v [] with
    | some (h₁, v₁, _) =>
      match setProperty { st with heap := h₁ } a k v₁ false with
      | some st₁ => some (st₁, true)
      | none => none
    | none => none
  else some (st, true)

/-- The deleteProperty trap: a silent no-op unless the write gate is open. -/
def trapDelete (st : St) (a : Nat) (k : Key) : Option (St × Bool) :=
  if st.writing then
    match setProperty st a k Val.undef true with
    | some st₁ => some (st₁, true)
    | none => none
  else some (st, true)

/-- Assignment on a view: resolve the proxy to its target, then the set trap. -/
def viewSet (fuel : Nat) (st : St) (p : Nat) (k : Key) (v : Val) : Option (St × Bool) :=
  match st.heap.get p with
  | some (HObj.prox t) => trapSet fuel st t k v
  | _ => none

/-- Deletion on a view: resolve the proxy to its target, then the delete trap. -/
def viewDelete (st : St) (p : Nat) (k : Key) : Option (St × Bool) :=
  match st.heap.get p with
  | some (HObj.prox t) => trapDelete st t k
  | _ => none

/-- Reading a property on a view: resolve the proxy to its target, then the
get trap. -/
def viewGet (st : St) (p : Nat) (k : Key) : Option (St × Val) :=
  match st.heap.get p with
  | some (HObj.prox t) => getTrap st t k
  | _ => none

/-- createStore of the source: unwrap the initial value defensively, wrap
the result, and return the view; the mutator is modelled by mutateStore. -/
def createStore (fuel : Nat) (st : St) (a : Nat) : Option (St × Nat) :=
  match unwrap fuel st.heap (Val.ref a) [] with
  | some (h₁, Val.ref c, _) =>
    match wrapV h₁ c with
    | some (h₂, p) => some ({ st with heap := h₂ }, p)
    | none => none
  | _ => none

/-- A primitive-valued mutation performed by a mutator callback on the view. -/
inductive MutOp where
  | assign : Key → Nat → MutOp
  | remove : Key → MutOp

/-- The property key an operation targets. -/
def MutOp.key : MutOp → Key
  | MutOp.assign k _ => k
  | MutOp.remove k => k

def applyOp (st : St) (p : Nat) : MutOp → Option St
  | MutOp.assign k n =>
    match viewSet 1 st p k (Val.num n) with
    | some (st₁, _) => some st₁
    | none => none
  | MutOp.remove k =>
    match viewDelete st p k with
    | some (st₁, _) => some st₁
    | none => none

def runOps (st : St) (p : Nat) : List MutOp → Option St
  | [] => some st
  | op :: rest =>
    match applyOp st p op with
    | some st₁ => runOps st₁ p rest
    | none => none

/-- The mutator returned by createStore: open the write gate, run the
callback's mutations against the view, and close the gate. -/
def mutateStore (st : St) (p : Nat) (ops : List MutOp) : Option St :=
  match runOps { st with writing := true } p ops with
  | some st₁ => some { st₁ with writing := false }
  | none => none

/-- The cell currently registered for a key of the node at an address. -/
def cellFor (st : St) (a : Nat) (nk : Key) : Option Cell :=
  match st.heap.get a with
  | some (HObj.obj o) =>
    match o.cells with
    | some reg => alook reg nk
    | none => none
  | _ => none

/-- The raw (non-bookkeeping) content of the node at an address. -/
def rawAt (st : St) (a : Nat) : Option (Bool × Bool × Nat × List (Key × Val)) :=
  match st.heap.get a with
  | some (HObj.obj o) => some (o.arr, o.frozen, o.len, o.props)
  | _ => none

/-- The cell registered for a key of the node at an address, read off the heap. -/
def cellForH (h : Heap) (a : Nat) (nk : Key) : Option Cell :=
  match h.get a with
  | some (HObj.obj o) =>
    match o.cells with
    | some reg => alook reg nk
    | none => none
  | _ => none

/-- Fire count of the currently registered cell, zero when none exists. -/
def oldFiresH (h : Heap) (a : Nat) (nk : Key) : Nat :=
  match cellForH h a nk with
  | some c => c.fires
  | none => 0

theorem cellFor_eq_cellForH (st : St) (a : Nat) (nk : Key) :
    cellFor st a nk = cellForH st.heap a nk := rfl

theorem alook_aset_self {α β : Type} [DecidableEq α] (l : List (α × β)) (k : α) (v : β) :
    alook (aset l k v) k = some v := by
  induction l with
  | nil => simp [aset, alook]
  | cons p t ih =>
    by_cases hk : p.1 = k
    · simp [aset, hk, alook]
    · simp [aset, hk, alook, ih]

theorem alook_aset_ne {α β : Type} [DecidableEq α] (l : List (α × β)) (k k' : α) (v : β)
    (h : k' ≠ k) : alook (aset l k v) k' = alook l k' := by
  have hkk : ¬ k = k' := fun hh => h hh.symm
  induction l with
  | nil => simp [aset, alook, hkk]
  | cons p t ih =>
    by_cases hk : p.1 = k
    · simp [aset, hk, alook, hkk]
    · simp [aset, hk, alook, ih]

theorem alook_mem {α β : Type} [DecidableEq α] (l : List (α × β)) (k : α) (v : β)
    (h : alook l k = some v) : (k, v) ∈ l := by
  induction l with
  | nil => simp [alook] at h
  | cons p t ih =>
    by_cases hk : p.1 = k
    · simp [alook, hk] at h
      cases p with
      | mk a b =>
        simp only at hk
        subst hk
        simp only at h
        subst h
        exact List.mem_cons_self _ _
    · simp [alook, hk] at h
      exact List.mem_cons_of_mem _ (ih h)

theorem alook_aerase_ne {α β : Type} [DecidableEq α] (l : List (α × β)) (k k' : α)
    (h : k' ≠ k) : alook (aerase l k) k' = alook l k' := by
  have hkk : ¬ k = k' := fun hh => h hh.symm
  induction l with
  | nil => simp [aerase]
  | cons p t ih =>
    by_cases hk : p.1 = k
    · simp [aerase, hk, alook, hkk, ih]
    · simp [aerase, hk, alook, ih]

theorem aerase_of_absent {α β : Type} [DecidableEq α] (l : List (α × β)) (k : α)
    (h : alook l k = none) : aerase l k = l := by
  induction l with
  | nil => simp [aerase]
  | cons p t ih =>
    by_cases hk : p.1 = k
    · simp [alook, hk] at h
    · simp [alook, hk] at h
      simp [aerase, hk, ih h]

theorem aset_of_lookup_eq {α β : Type} [DecidableEq α] (l : List (α × β)) (k : α) (v : β)
    (h : alook l k = some v) : aset l k v = l := by
  induction l with
  | nil => simp [alook] at h
  | cons p t ih =>
    by_cases hk : p.1 = k
    · simp [alook, hk] at h
      cases p with
      | mk a b =>
        simp only at hk
        subst hk
        simp only at h
        subst h
        simp [aset]
    · simp [alook, hk] at h
      simp [aset, hk, ih h]

theorem Heap.get_set_self (h : Heap) (a : Nat) (x : HObj) : (h.set a x).get a = some x :=
  alook_aset_self h.mem a x

theorem Heap.get_set_ne (h : Heap) (a b : Nat) (x : HObj) (hab : b ≠ a) :
    (h.set a x).get b = h.get b :=
  alook_aset_ne h.mem a b x hab

theorem le_foldr_max_of_mem {l : List Nat} {k : Nat} (h : k ∈ l) :
    k ≤ l.foldr max 0 := by
  induction l with
  | nil => cases h
  | cons x t ih =>
    rcases List.mem_cons.mp h with h1 | h2
    · subst h1
      exact le_max_left _ _
    · exact le_trans (ih h2) (le_max_right _ _)

theorem alook_eq_none_of_lt {β : Type} (l : List (Nat × β)) (k : Nat)
    (h : ∀ p ∈ l, p.1 < k) : alook l k = none := by
  induction l with
  | nil => rfl
  | cons p t ih =>
    have hp : ¬ p.1 = k := Nat.ne_of_lt (h p (List.mem_cons_self p t))
    simp only [alook, if_neg hp]
    exact ih (fun q hq => h q (List.mem_cons_of_mem p hq))

theorem Heap.get_fresh (h : Heap) : h.get h.fresh = none := by
  apply alook_eq_none_of_lt
  intro p hp
  have hmem : p.1 ∈ h.mem.map (fun q => q.1) := List.mem_map_of_mem _ hp
  have := le_foldr_max_of_mem hmem
  unfold Heap.fresh
  omega

theorem ne_fresh_of_get_some (h : Heap) (a : Nat) (x : HObj) (hg : h.get a = some x) :
    a ≠ h.fresh := by
  intro he
  rw [he, Heap.get_fresh] at hg
  cases hg

theorem alook_touch_self (reg : Registry) (nk : Key) (s p : Val) :
    alook (touch reg nk s p) nk =
      some ⟨p, (match alook reg nk with | some c => c.fires | none => 0) + 1⟩ := by
  unfold touch
  cases hl : alook reg nk with
  | some c => simp [hl, alook_aset_self]
  | none => simp [hl, alook_aset_self]

theorem alook_touch_ne (reg : Registry) (nk nk' : Key) (s p : Val) (h : nk' ≠ nk) :
    alook (touch reg nk s p) nk' = alook reg nk' := by
  unfold touch
  cases hl : alook reg nk with
  | some c => simp [hl, alook_aset_ne _ _ _ _ h]
  | none => simp [hl, alook_aset_ne _ _ _ _ h]

theorem getDataNode_some_eq_touch (reg : Registry) (k : Key) (seed p : Val)
    (cr : Cell × Registry) (h : getDataNode reg k seed = some cr) :
    aset cr.2 k ⟨p, cr.1.fires + 1⟩ = touch reg k seed p := by
  unfold getDataNode at h
  unfold touch
  cases hl : alook reg k with
  | some c =>
    rw [hl] at h
    simp only [Option.some.injEq] at h
    rw [← h]
  | none =>
    rw [hl] at h
    by_cases hpm : protoMember k = true
    · rw [if_pos hpm] at h
      cases h
    · rw [if_neg hpm] at h
      simp only [Option.some.injEq] at h
      rw [← h]

theorem getDataNode_some_cases (reg : Registry) (k : Key) (seed : Val)
    (cr : Cell × Registry) (h : getDataNode reg k seed = some cr) :
    protoMember k = false ∨ (alook reg k).isSome = true := by
  unfold getDataNode at h
  cases hl : alook reg k with
  | some c => exact Or.inr rfl
  | none =>
    rw [hl] at h
    by_cases hpm : protoMember k = true
    · rw [if_pos hpm] at h
      cases h
    · exact Or.inl (by cases hb : protoMember k; rfl; exact absurd hb hpm)

theorem getDataNode_isSome (reg : Registry) (k : Key) (seed : Val)
    (hk : protoMember k = false ∨ (alook reg k).isSome = true) :
    ∃ cr, getDataNode reg k seed = some cr := by
  unfold getDataNode
  cases hl : alook reg k with
  | some c => exact ⟨(c, reg), rfl⟩
  | none =>
    cases hk with
    | inl hpm =>
      rw [hpm]
      exact ⟨_, rfl⟩
    | inr hs =>
      rw [hl] at hs
      cases hs

theorem getDataNode_none_of_proto_absent (reg : Registry) (k : Key) (seed : Val)
    (hpm : protoMember k = true) (habs : alook reg k = none) :
    getDataNode reg k seed = none := by
  unfold getDataNode
  rw [habs, if_pos hpm]

theorem selfKey_not_proto : protoMember selfKey = false := by decide

theorem length_ne_selfKey : (Key.str "length") ≠ selfKey := by decide

theorem protoMember_ne_length (k : Key) (h : protoMember k = true) :
    k ≠ Key.str "length" := by
  intro he
  rw [he] at h
  exact absurd h (by decide)

theorem protoMember_ne_selfKey (k : Key) (h : protoMember k = true) : k ≠ selfKey := by
  intro he
  rw [he, selfKey_not_proto] at h
  cases h

theorem alook_fireSelf_self (reg : Registry) :
    alook (fireSelf reg) selfKey =
      (alook reg selfKey).map (fun c => ⟨Val.undef, c.fires + 1⟩) := by
  unfold fireSelf
  cases hs : alook reg selfKey with
  | some c => simp [alook_aset_self]
  | none => simp [hs]

theorem alook_fireSelf_prop (reg : Registry) (k : Key) (hk : k ≠ selfKey) :
    alook (fireSelf reg) k = alook reg k := by
  unfold fireSelf
  cases hs : alook reg selfKey with
  | some c => exact alook_aset_ne _ _ _ _ hk
  | none => rfl

theorem alook_fireStep2_self (o₁ : Obj) (oldLen : Nat) (reg₁ : Registry) :
    alook (fireStep2 o₁ oldLen reg₁) selfKey = alook reg₁ selfKey := by
  unfold fireStep2
  by_cases hfire : o₁.arr = true ∧ o₁.len ≠ oldLen
  · rw [if_pos hfire]
    exact alook_touch_ne _ _ _ _ _ (Ne.symm length_ne_selfKey)
  · rw [if_neg hfire]

theorem alook_fireStep2_prop_ne_length (o₁ : Obj) (oldLen : Nat) (reg₁ : Registry) (k : Key)
    (hk : k ≠ Key.str "length") :
    alook (fireStep2 o₁ oldLen reg₁) k = alook reg₁ k := by
  unfold fireStep2
  by_cases hfire : o₁.arr = true ∧ o₁.len ≠ oldLen
  · rw [if_pos hfire]
    exact alook_touch_ne _ _ _ _ _ hk
  · rw [if_neg hfire]

theorem alook_fireStep2_no_change (o₁ : Obj) (oldLen : Nat) (reg₁ : Registry)
    (h : ¬(o₁.arr = true ∧ o₁.len ≠ oldLen)) :
    fireStep2 o₁ oldLen reg₁ = reg₁ := by
  unfold fireStep2
  rw [if_neg h]

theorem fireSequence_self (o₁ : Obj) (oldLen : Nat) (k : Key) (prev v : Val) (reg : Registry)
    (hks : k ≠ selfKey) :
    alook (fireSequence o₁ oldLen k prev v reg) selfKey =
      (alook reg selfKey).map (fun c => ⟨Val.undef, c.fires + 1⟩) := by
  unfold fireSequence
  rw [alook_fireSelf_self, alook_fireStep2_self,
    alook_touch_ne _ _ _ _ _ (Ne.symm hks)]

/-- Writing the key "_" fires the very cell the self step reads: the cell
is created-and-fired by the property step, then fired again (payload reset
to undefined) by the self step. -/
theorem fireSequence_self_write (o₁ : Obj) (oldLen : Nat) (prev v : Val) (reg : Registry) :
    alook (fireSequence o₁ oldLen selfKey prev v reg) selfKey =
      some ⟨Val.undef,
        (match alook reg selfKey with | some c => c.fires | none => 0) + 2⟩ := by
  unfold fireSequence
  rw [alook_fireSelf_self, alook_fireStep2_self, alook_touch_self]
  rfl

theorem fireSequence_prop (o₁ : Obj) (oldLen : Nat) (k : Key) (prev v : Val) (reg : Registry)
    (hk : (o₁.arr = true ∧ o₁.len ≠ oldLen) → k ≠ Key.str "length")
    (hks : k ≠ selfKey) :
    alook (fireSequence o₁ oldLen k prev v reg) k =
      some ⟨v, (match alook reg k with | some c => c.fires | none => 0) + 1⟩ := by
  unfold fireSequence
  rw [alook_fireSelf_prop _ _ hks]
  by_cases hfire : o₁.arr = true ∧ o₁.len ≠ oldLen
  · unfold fireStep2
    rw [if_pos hfire,
      alook_touch_ne _ _ _ _ _ (hk hfire),
      alook_touch_self]
  · rw [alook_fireStep2_no_change _ _ _ hfire, alook_touch_self]

theorem fireSequence_length_of_changed (o₁ : Obj) (oldLen : Nat) (k : Key) (prev v : Val)
    (reg : Registry) (hfire : o₁.arr = true ∧ o₁.len ≠ oldLen) (hk : k ≠ Key.str "length") :
    alook (fireSequence o₁ oldLen k prev v reg) (Key.str "length") =
      some ⟨Val.num o₁.len,
        (match alook reg (Key.str "length") with
         | some c => c.fires | none => 0) + 1⟩ := by
  unfold fireSequence fireStep2
  rw [alook_fireSelf_prop _ _ length_ne_selfKey, if_pos hfire, alook_touch_self,
    alook_touch_ne _ _ _ _ _ (Ne.symm hk)]

theorem fireSequence_length_self_write (o₁ : Obj) (oldLen : Nat) (prev v : Val)
    (reg : Registry) (hfire : o₁.arr = true ∧ o₁.len ≠ oldLen) :
    alook (fireSequence o₁ oldLen (Key.str "length") prev v reg)
        (Key.str "length") =
      some ⟨Val.num o₁.len,
        (match alook reg (Key.str "length") with
         | some c => c.fires | none => 0) + 2⟩ := by
  unfold fireSequence fireStep2
  rw [alook_fireSelf_prop _ _ length_ne_selfKey, if_pos hfire, alook_touch_self,
    alook_touch_self]

theorem rawWrite_preserves (o o₁ : Obj) (k : Key) (v : Val)
    (h : rawWrite o k v = some o₁) :
    o₁.arr = o.arr ∧ o₁.frozen = o.frozen ∧ o₁.proxy = o.proxy ∧ o₁.cells = o.cells := by
  unfold rawWrite at h
  cases hf : o.frozen with
  | true => rw [hf] at h; simp at h
  | false =>
    rw [hf] at h
    simp only [if_false, Bool.false_eq_true] at h
    cases ha : o.arr with
    | false =>
      rw [ha] at h
      simp only [if_false, Bool.false_eq_true, Option.some.injEq] at h
      rw [← h]
      exact ⟨rfl, rfl, rfl, rfl⟩
    | true =>
      rw [ha] at h
      simp only [if_true] at h
      by_cases hk : k = Key.str "length"
      · rw [if_pos hk] at h
        cases v with
        | num n =>
          simp only [Option.some.injEq] at h
          rw [← h]
          exact ⟨rfl, rfl, rfl, rfl⟩
        | undef => simp at h
        | ref b => simp at h
      · rw [if_neg hk] at h
        cases k with
        | str s =>
          simp only [Option.some.injEq] at h
          rw [← h]
          exact ⟨rfl, rfl, rfl, rfl⟩
        | idx i =>
          simp only [Option.some.injEq] at h
          rw [← h]
          exact ⟨rfl, rfl, rfl, rfl⟩

theorem rawDelete_preserves (o o₁ : Obj) (k : Key)
    (h : rawDelete o k = some o₁) :
    o₁.arr = o.arr ∧ o₁.frozen = o.frozen ∧ o₁.proxy = o.proxy ∧ o₁.cells = o.cells ∧
      o₁.len = o.len := by
  unfold rawDelete at h
  by_cases h1 : o.arr = true ∧ k = Key.str "length"
  · simp [h1] at h
  · rw [if_neg h1] at h
    by_cases h2 : o.frozen = true ∧ (alook o.props k).isSome = true
    · simp [h2] at h
    · rw [if_neg h2] at h
      simp only [Option.some.injEq] at h
      rw [← h]
      exact ⟨rfl, rfl, rfl, rfl, rfl⟩

theorem ensureRegistry_congr (o o' : Obj) (hc : o'.cells = o.cells)
    (hf : o'.frozen = o.frozen) : ensureRegistry o' = ensureRegistry o := by
  unfold ensureRegistry
  rw [hc, hf]

theorem ensureRegistry_of_not_frozen (o : Obj) (h : o.frozen = false) :
    ensureRegistry o = some (o.cells.getD []) := by
  unfold ensureRegistry
  cases o.cells with
  | some r => rfl
  | none => simp [h]

theorem alook_reg_eq_cellForH (h : Heap) (a : Nat) (o : Obj) (reg : Registry) (nk : Key)
    (hget : h.get a = some (HObj.obj o)) (hens : ensureRegistry o = some reg) :
    alook reg nk = cellForH h a nk := by
  unfold cellForH
  rw [hget]
  simp only []
  unfold ensureRegistry at hens
  cases hc : o.cells with
  | some r =>
    rw [hc] at hens
    injection hens with hh
    subst hh
    rfl
  | none =>
    rw [hc] at hens
    cases hf : o.frozen with
    | true => rw [hf] at hens; simp at hens
    | false =>
      rw [hf] at hens
      simp only [if_false, Bool.false_eq_true, Option.some.injEq] at hens
      subst hens
      rfl

theorem cellForH_set_registry (h : Heap) (a : Nat) (o : Obj) (reg : Registry)
    (hget : h.get a = some (HObj.obj o)) (hens : ensureRegistry o = some reg)
    (b : Nat) (nk : Key) :
    cellForH (h.set a (HObj.obj { o with cells := some reg })) b nk = cellForH h b nk := by
  by_cases hb : b = a
  · subst hb
    unfold cellForH
    rw [Heap.get_set_self, hget]
    simp only []
    exact (alook_reg_eq_cellForH h b o reg nk hget hens).trans (by unfold cellForH; rw [hget])
  · unfold cellForH
    rw [Heap.get_set_ne _ _ _ _ hb]

theorem wrapV_cellForH (h : Heap) (b : Nat) (h₁ : Heap) (q : Nat)
    (hw : wrapV h b = some (h₁, q)) (c : Nat) (nk : Key) :
    cellForH h₁ c nk = cellForH h c nk := by
  unfold wrapV at hw
  cases hg : h.get b with
  | none => rw [hg] at hw; cases hw
  | some x =>
    rw [hg] at hw
    simp only [] at hw
    cases x with
    | prox t =>
      simp only [Option.some.injEq, Prod.mk.injEq] at hw
      rw [hw.1]
    | obj o =>
      simp only [] at hw
      cases hpx : o.proxy with
      | some p =>
        rw [hpx] at hw
        simp only [] at hw
        simp only [Option.some.injEq, Prod.mk.injEq] at hw
        rw [hw.1]
      | none =>
        rw [hpx] at hw
        simp only [] at hw
        cases hf : o.frozen with
        | true => rw [hf] at hw; simp at hw
        | false =>
          rw [hf] at hw
          simp only [if_false, Bool.false_eq_true, Option.some.injEq, Prod.mk.injEq] at hw
          obtain ⟨hh, hq⟩ := hw
          have hbf : b ≠ h.fresh := ne_fresh_of_get_some h b _ hg
          subst hh
          by_cases hcf : c = h.fresh
          · subst hcf
            unfold cellForH
            rw [Heap.get_set_self, Heap.get_fresh]
          · by_cases hcb : c = b
            · subst hcb
              unfold cellForH
              rw [Heap.get_set_ne _ _ _ _ hcf, Heap.get_set_self, hg]
            · unfold cellForH
              rw [Heap.get_set_ne _ _ _ _ hcf, Heap.get_set_ne _ _ _ _ hcb]

theorem finishRead_spec (st : St) (v : Val) (st' : St) (v' : Val)
    (h : finishRead st v = some (st', v')) :
    st'.deps = st.deps ∧ st'.writing = st.writing ∧ st'.reaction = st.reaction ∧
      ∀ c nk, cellForH st'.heap c nk = cellForH st.heap c nk := by
  unfold finishRead at h
  cases v with
  | undef =>
    simp only [Option.some.injEq, Prod.mk.injEq] at h
    rw [← h.1]
    exact ⟨rfl, rfl, rfl, fun c nk => rfl⟩
  | num n =>
    simp only [Option.some.injEq, Prod.mk.injEq] at h
    rw [← h.1]
    exact ⟨rfl, rfl, rfl, fun c nk => rfl⟩
  | ref b =>
    simp only [] at h
    by_cases hs : (st.heap.get b).isSome = true
    · rw [if_pos hs] at h
      cases hw : wrapV st.heap b with
      | none => rw [hw] at h; cases h
      | some hq =>
        rw [hw] at h
        simp only [] at h
        simp only [Option.some.injEq, Prod.mk.injEq] at h
        rw [← h.1]
        exact ⟨rfl, rfl, rfl, fun c nk => wrapV_cellForH _ _ _ hq.2 hw c nk⟩
    · rw [if_neg hs] at h
      simp only [Option.some.injEq, Prod.mk.injEq] at h
      rw [← h.1]
      exact ⟨rfl, rfl, rfl, fun c nk => rfl⟩

theorem rawWrite_length_num (o o₁ : Obj) (v : Val) (harr : o.arr = true)
    (h : rawWrite o (Key.str "length") v = some o₁) :
    ∃ n, v = Val.num n ∧ o₁.len = n := by
  unfold rawWrite at h
  cases hf : o.frozen with
  | true => rw [hf] at h; simp at h
  | false =>
    rw [hf, harr] at h
    simp only [if_false, if_true, if_pos rfl, Bool.false_eq_true] at h
    cases v with
    | num n =>
      simp only [Option.some.injEq] at h
      exact ⟨n, rfl, by rw [← h]⟩
    | undef => simp at h
    | ref b => simp at h

/-! Sample states used by the witnesses. -/

def obj0 : Obj :=
  { arr := false, frozen := false, len := 0
    props := [(Key.str "x", Val.num 1)], proxy := none, cells := none }

def heap0 : Heap := ⟨[(0, HObj.obj obj0)]⟩

/-- A state with the write gate closed and no tracking context. -/
def stClosed : St := ⟨heap0, false, false, []⟩

/-- A state inside an open transaction (write gate open), no tracking context. -/
def stOpen : St := ⟨heap0, true, false, []⟩

/-! Claims -/

/-- C1: with no transaction open (write gate closed), the set and
deleteProperty interceptions return success while leaving the entire state
(raw node, cells, everything) unchanged and raising no failure. -/
theorem c1_closed_gate_writes_are_silent_noops (fuel : Nat) (st : St) (a : Nat) (k : Key)
    (v : Val) (hw : st.writing = false) :
    trapSet fuel st a k v = some (st, true) ∧ trapDelete st a k = some (st, true) := by
  unfold trapSet trapDelete
  rw [hw]
  exact ⟨rfl, rfl⟩

theorem c1_closed_gate_writes_are_silent_noops_witness :
    stClosed.writing = false ∧
      trapSet 1 stClosed 0 (Key.str "x") (Val.num 5) = some (stClosed, true) ∧
      trapDelete stClosed 0 (Key.str "x") = some (stClosed, true) :=
  ⟨rfl,
    (c1_closed_gate_writes_are_silent_noops 1 stClosed 0 (Key.str "x") (Val.num 5) rfl).1,
    (c1_closed_gate_writes_are_silent_noops 1 stClosed 0 (Key.str "x") (Val.num 5) rfl).2⟩

theorem setProperty_noop_of_idem (st : St) (a : Nat) (k : Key) (v : Val) (o : Obj)
    (hget : st.heap.get a = some (HObj.obj o)) (hv : rawRead o k = v) :
    setProperty st a k v false = some st := by
  simp only [setProperty, hget]
  simp [hv]

/-- C3: inside a transaction, assigning a property its current raw value is
a complete no-op: setProperty returns the state unchanged, so no cell
(property, length or self) fires. -/
theorem c3_idempotent_assignment_is_noop (st : St) (a : Nat) (k : Key) (v : Val) (o : Obj)
    (hget : st.heap.get a = some (HObj.obj o)) (hv : rawRead o k = v) :
    setProperty st a k v false = some st :=
  setProperty_noop_of_idem st a k v o hget hv

theorem c3_idempotent_assignment_is_noop_witness :
    rawRead obj0 (Key.str "x") = Val.num 1 ∧
      setProperty stOpen 0 (Key.str "x") (Val.num 1) false = some stOpen :=
  ⟨by decide, c3_idempotent_assignment_is_noop stOpen 0 (Key.str "x") (Val.num 1) obj0
    (by decide) (by decide)⟩

/-- C5: wrap is identity-stable: once wrap has returned a view for a node,
every later wrap of the same node returns the very same view and performs
no further allocation or heap change. -/
theorem c5_wrap_identity_stable (h : Heap) (a : Nat) (h₁ : Heap) (p : Nat)
    (hw : wrapV h a = some (h₁, p)) : wrapV h₁ a = some (h₁, p) := by
  unfold wrapV at hw
  cases hg : h.get a with
  | none => rw [hg] at hw; cases hw
  | some x =>
    rw [hg] at hw
    simp only [] at hw
    cases x with
    | prox t =>
      simp only [Option.some.injEq, Prod.mk.injEq] at hw
      rw [← hw.1, ← hw.2]
      simp only [wrapV, hg]
    | obj o =>
      simp only [] at hw
      cases hpx : o.proxy with
      | some q =>
        rw [hpx] at hw
        simp only [] at hw
        simp only [Option.some.injEq, Prod.mk.injEq] at hw
        rw [← hw.1, ← hw.2]
        simp only [wrapV, hg, hpx]
      | none =>
        rw [hpx] at hw
        simp only [] at hw
        cases hf : o.frozen with
        | true => rw [hf] at hw; simp at hw
        | false =>
          rw [hf] at hw
          simp only [if_false, Bool.false_eq_true, Option.some.injEq, Prod.mk.injEq] at hw
          obtain ⟨hh, hq⟩ := hw
          subst hq
          have haf : a ≠ h.fresh := ne_fresh_of_get_some h a _ hg
          rw [← hh]
          have hget₁ : ((h.set a (HObj.obj { arr := o.arr, frozen := false, len := o.len, props := o.props, proxy := some h.fresh, cells := o.cells })).set h.fresh (HObj.prox a)).get a = some (HObj.obj { arr := o.arr, frozen := false, len := o.len, props := o.props, proxy := some h.fresh, cells := o.cells }) := by
            rw [Heap.get_set_ne _ _ _ _ haf, Heap.get_set_self]
          simp only [wrapV, hget₁]

def heapW : Heap :=
  ⟨[(0, HObj.obj { arr := false, frozen := false, len := 0
                   props := [(Key.str "x", Val.num 1)], proxy := some 1, cells := none }),
    (1, HObj.prox 0)]⟩

theorem c5_wrap_identity_stable_witness :
    wrapV heap0 0 = some (heapW, 1) ∧ wrapV heapW 0 = some (heapW, 1) :=
  ⟨by decide, c5_wrap_identity_stable heap0 0 heapW 1 (by decide)⟩

theorem mut_preserves (o o₁ : Obj) (k : Key) (v : Val) (del : Bool)
    (hmut : (if del then rawDelete o k else rawWrite o k v) = some o₁) :
    o₁.arr = o.arr ∧ o₁.frozen = o.frozen ∧ o₁.proxy = o.proxy ∧ o₁.cells = o.cells := by
  cases del with
  | true =>
    simp only [if_true] at hmut
    have := rawDelete_preserves o o₁ k hmut
    exact ⟨this.1, this.2.1, this.2.2.1, this.2.2.2.1⟩
  | false =>
    simp only [if_false, Bool.false_eq_true] at hmut
    exact rawWrite_preserves o o₁ k v hmut

/-- Inversion of a successful, non-idempotent setProperty: the raw mutation
succeeded, the registry was obtained, getDataNode yielded a cell (the key
either is no Object.prototype member name or already had a cell), and the
result state is the original with the mutated object and fired registry
written back. -/
theorem setProperty_inv (st : St) (a : Nat) (k : Key) (v : Val) (del : Bool) (o : Obj)
    (st' : St)
    (hget : st.heap.get a = some (HObj.obj o))
    (hni : ¬(del = false ∧ rawRead o k = v))
    (hset : setProperty st a k v del = some st') :
    ∃ o₁ reg, (if del then rawDelete o k else rawWrite o k v) = some o₁ ∧
      ensureRegistry o₁ = some reg ∧
      (protoMember k = false ∨ (alook reg k).isSome = true) ∧
      st' = { st with heap := st.heap.set a (HObj.obj { o₁ with
        cells := some (fireSequence o₁ o.len k (rawRead o k) v reg) }) } := by
  simp only [setProperty, hget] at hset
  rw [if_neg hni] at hset
  cases hmut : (if del then rawDelete o k else rawWrite o k v) with
  | none => rw [hmut] at hset; simp at hset
  | some o₁ =>
    rw [hmut] at hset
    simp only [] at hset
    cases hens : ensureRegistry o₁ with
    | none => rw [hens] at hset; simp at hset
    | some reg =>
      rw [hens] at hset
      simp only [] at hset
      cases hnode : getDataNode reg k (rawRead o k) with
      | none => rw [hnode] at hset; simp at hset
      | some cr =>
        rw [hnode] at hset
        simp only [Option.some.injEq] at hset
        refine ⟨o₁, reg, rfl, hens, getDataNode_some_cases reg k _ cr hnode, ?_⟩
        rw [← hset]
        unfold fireSequence
        rw [getDataNode_some_eq_touch reg k (rawRead o k) v cr hnode]

/-- A read with no active tracking context changes no cell anywhere and
records no dependency. -/
theorem getTrap_untracked_preserves (st : St) (a : Nat) (k : Key) (st' : St) (v : Val)
    (hreact : st.reaction = false) (h : getTrap st a k = some (st', v)) :
    st'.deps = st.deps ∧ ∀ b nk, cellForH st'.heap b nk = cellForH st.heap b nk := by
  unfold getTrap at h
  cases hg : st.heap.get a with
  | none => rw [hg] at h; cases h
  | some x =>
    rw [hg] at h
    simp only [] at h
    cases x with
    | prox t => simp only [] at h; cases h
    | obj o =>
      simp only [] at h
      cases hens : ensureRegistry o with
      | none => rw [hens] at h; simp at h
      | some reg =>
        rw [hens] at h
        simp only [] at h
        cases htr : alook reg k with
        | some c =>
          rw [htr] at h
          simp only [hreact, Bool.false_eq_true, if_false] at h
          by_cases hk : k = Key.str "__proto__"
          · rw [if_pos hk] at h
            simp only [Option.some.injEq, Prod.mk.injEq] at h
            rw [← h.1]
            exact ⟨rfl, fun b nk => cellForH_set_registry st.heap a o reg hg hens b nk⟩
          · rw [if_neg hk] at h
            have hfr := finishRead_spec _ _ _ _ h
            refine ⟨hfr.1, fun b nk => ?_⟩
            rw [hfr.2.2.2 b nk]
            exact cellForH_set_registry st.heap a o reg hg hens b nk
        | none =>
          rw [htr] at h
          simp only [] at h
          by_cases hk : k = Key.str "__proto__"
          · rw [if_pos hk] at h
            simp only [Option.some.injEq, Prod.mk.injEq] at h
            rw [← h.1]
            exact ⟨rfl, fun b nk => cellForH_set_registry st.heap a o reg hg hens b nk⟩
          · rw [if_neg hk] at h
            simp only [hreact, Bool.false_eq_true, if_false] at h
            have hfr := finishRead_spec _ _ _ _ h
            refine ⟨hfr.1, fun b nk => ?_⟩
            rw [hfr.2.2.2 b nk]
            exact cellForH_set_registry st.heap a o reg hg hens b nk

/-- Observer used by the C2 counterexample: the cell registered for the
written property after a plain (non-deleting) setProperty call. -/
def cellAfterWrite (st : St) (a : Nat) (k : Key) (v : Val) : Option Cell :=
  match setProperty st a k v false with
  | some st' => cellFor st' a k
  | none => none

/-- C2 counterexample: on a node whose property x has no Cell, a write
inside a transaction creates (and fires) a Cell for x — refuting the claim
that setProperty fires the Cell only if one already exists and never
creates one as a side effect of a write. -/
theorem c2_counterexample_write_creates_cell :
    cellFor stOpen 0 (Key.str "x") = none ∧
      cellAfterWrite stOpen 0 (Key.str "x") (Val.num 2) = some ⟨Val.num 2, 1⟩ := by
  constructor <;> decide

/-- C2 (amended): a read with no active tracking context never materializes
a Cell; a non-idempotent setProperty fires the Cell of the written
property, creating it seeded with the previous raw value when absent — for
the key "_" the created-and-fired cell is the reserved self cell itself, so
the final self step fires it a second time, leaving payload undefined. -/
theorem c2_amended_cell_materialization :
    (∀ st a k st' v, st.reaction = false → getTrap st a k = some (st', v) →
      ∀ b nk, cellForH st'.heap b nk = cellForH st.heap b nk) ∧
    (∀ st a k v del o st', st.heap.get a = some (HObj.obj o) →
      ¬(del = false ∧ rawRead o k = v) → k ≠ selfKey →
      setProperty st a k v del = some st' →
      ∃ c, cellFor st' a k = some c ∧ c.payload = v ∧
        oldFiresH st.heap a k + 1 ≤ c.fires) ∧
    (∀ st a v del o st', st.heap.get a = some (HObj.obj o) →
      ¬(del = false ∧ rawRead o selfKey = v) →
      setProperty st a selfKey v del = some st' →
      cellFor st' a selfKey =
        some ⟨Val.undef, oldFiresH st.heap a selfKey + 2⟩) := by
  refine ⟨?_, ?_, ?_⟩
  · intro st a k st' v hreact h b nk
    exact (getTrap_untracked_preserves st a k st' v hreact h).2 b nk
  · intro st a k v del o st' hget hni hks hset
    obtain ⟨o₁, reg, hmut, hens, _, hst⟩ := setProperty_inv st a k v del o st' hget hni hset
    have hpres := mut_preserves o o₁ k v del hmut
    have hreg : alook reg k = cellForH st.heap a k := by
      have hcong : ensureRegistry o = some reg :=
        (ensureRegistry_congr o o₁ hpres.2.2.2 hpres.2.1).symm.trans hens
      exact alook_reg_eq_cellForH st.heap a o reg _ hget hcong
    have hcell : cellFor st' a k =
        alook (fireSequence o₁ o.len k (rawRead o k) v reg) k := by
      rw [hst]
      unfold cellFor
      rw [Heap.get_set_self]
    have hold : (match alook reg k with | some c => c.fires | none => 0) =
        oldFiresH st.heap a k := by
      rw [hreg]
      unfold oldFiresH
      cases cellForH st.heap a k <;> rfl
    by_cases hfire : o₁.arr = true ∧ o₁.len ≠ o.len
    · by_cases hkl : k = Key.str "length"
      · subst hkl
        have harr : o.arr = true := by rw [← hpres.1]; exact hfire.1
        have hdel : del = false := by
          cases del with
          | false => rfl
          | true =>
            simp only [if_true] at hmut
            unfold rawDelete at hmut
            rw [if_pos ⟨harr, rfl⟩] at hmut
            cases hmut
        subst hdel
        simp only [if_false, Bool.false_eq_true] at hmut
        obtain ⟨n, hv, hn⟩ := rawWrite_length_num o o₁ v harr hmut
        refine ⟨⟨Val.num o₁.len,
          oldFiresH st.heap a (Key.str "length") + 2⟩, ?_, ?_, ?_⟩
        · rw [hcell,
            fireSequence_length_self_write o₁ o.len (rawRead o (Key.str "length")) v reg hfire,
            hold]
        · show Val.num o₁.len = v
          rw [hv, hn]
        · exact Nat.le_succ _
      · refine ⟨⟨v, oldFiresH st.heap a k + 1⟩, ?_, rfl, ?_⟩
        · rw [hcell, fireSequence_prop o₁ o.len k (rawRead o k) v reg (fun _ => hkl) hks, hold]
        · exact Nat.le_refl _
    · refine ⟨⟨v, oldFiresH st.heap a k + 1⟩, ?_, rfl, ?_⟩
      · rw [hcell,
          fireSequence_prop o₁ o.len k (rawRead o k) v reg (fun hf => absurd hf hfire) hks,
          hold]
      · exact Nat.le_refl _
  · intro st a v del o st' hget hni hset
    obtain ⟨o₁, reg, hmut, hens, _, hst⟩ :=
      setProperty_inv st a selfKey v del o st' hget hni hset
    have hpres := mut_preserves o o₁ selfKey v del hmut
    have hreg : alook reg selfKey = cellForH st.heap a selfKey := by
      have hcong : ensureRegistry o = some reg :=
        (ensureRegistry_congr o o₁ hpres.2.2.2 hpres.2.1).symm.trans hens
      exact alook_reg_eq_cellForH st.heap a o reg _ hget hcong
    have hcell : cellFor st' a selfKey =
        alook (fireSequence o₁ o.len selfKey (rawRead o selfKey) v reg) selfKey := by
      rw [hst]
      unfold cellFor
      rw [Heap.get_set_self]
    have hold : (match alook reg selfKey with | some c => c.fires | none => 0) =
        oldFiresH st.heap a selfKey := by
      rw [hreg]
      unfold oldFiresH
      cases cellForH st.heap a selfKey <;> rfl
    rw [hcell, fireSequence_self_write o₁ o.len (rawRead o selfKey) v reg, hold]

/-- The node after an untracked first read of property x of the sample store:
the registry has been attached, but no cell exists. -/
def objAfterRead : Obj :=
  { arr := false, frozen := false, len := 0
    props := [(Key.str "x", Val.num 1)], proxy := none, cells := some [] }

def stAfterRead : St := ⟨⟨[(0, HObj.obj objAfterRead)]⟩, false, false, []⟩

/-- The node after writing x := 2 in the sample store inside a transaction. -/
def objW : Obj :=
  { arr := false, frozen := false, len := 0
    props := [(Key.str "x", Val.num 2)], proxy := none
    cells := some [(Key.str "x", ⟨Val.num 2, 1⟩)] }

def stW : St := ⟨⟨[(0, HObj.obj objW)]⟩, true, false, []⟩

/-- The node after writing "_" := 2 in the sample store inside a
transaction: the cell at "_" was created-and-fired by the property step
(payload 2) and then fired again by the self step (payload undefined). -/
def objWS : Obj :=
  { arr := false, frozen := false, len := 0
    props := [(Key.str "x", Val.num 1), (Key.str "_", Val.num 2)], proxy := none
    cells := some [(Key.str "_", ⟨Val.undef, 2⟩)] }

def stWS : St := ⟨⟨[(0, HObj.obj objWS)]⟩, true, false, []⟩

theorem c2_amended_cell_materialization_witness :
    stClosed.reaction = false ∧
      getTrap stClosed 0 (Key.str "x") = some (stAfterRead, Val.num 1) ∧
      cellForH stAfterRead.heap 0 (Key.str "x") =
        cellForH stClosed.heap 0 (Key.str "x") ∧
      (∃ c, cellFor stW 0 (Key.str "x") = some c ∧ c.payload = Val.num 2 ∧
        oldFiresH stOpen.heap 0 (Key.str "x") + 1 ≤ c.fires) ∧
      cellFor stWS 0 selfKey = some ⟨Val.undef, oldFiresH stOpen.heap 0 selfKey + 2⟩ :=
  ⟨rfl, by decide,
    c2_amended_cell_materialization.1 stClosed 0 (Key.str "x") stAfterRead (Val.num 1)
      rfl (by decide) 0 (Key.str "x"),
    c2_amended_cell_materialization.2.1 stOpen 0 (Key.str "x") (Val.num 2) false obj0 stW
      (by decide) (by decide) (by decide) (by decide),
    c2_amended_cell_materialization.2.2 stOpen 0 (Val.num 2) false obj0 stWS
      (by decide) (by decide) (by decide)⟩

/-- C6: every successful (non-idempotent) mutation through setProperty —
assignment or deletion — fires the reserved self cell (nodes._) whenever it
exists: its fire count strictly increases (by one for an ordinary key, and
by two when the written key is "_" itself, since the property step fires
the same cell first) and its payload ends undefined. -/
theorem c6_every_mutation_fires_self_cell (st : St) (a : Nat) (k : Key) (v : Val)
    (del : Bool) (o : Obj) (c : Cell) (st' : St)
    (hget : st.heap.get a = some (HObj.obj o))
    (hself : cellForH st.heap a selfKey = some c)
    (hni : ¬(del = false ∧ rawRead o k = v))
    (hset : setProperty st a k v del = some st') :
    ∃ c', cellForH st'.heap a selfKey = some c' ∧ c'.payload = Val.undef ∧
      c.fires < c'.fires := by
  obtain ⟨o₁, reg, hmut, hens, _, hst⟩ := setProperty_inv st a k v del o st' hget hni hset
  have hpres := mut_preserves o o₁ k v del hmut
  have hreg : alook reg selfKey = cellForH st.heap a selfKey := by
    have hcong : ensureRegistry o = some reg := by
      rw [← ensureRegistry_congr o o₁ hpres.2.2.2 hpres.2.1]
      exact hens
    exact alook_reg_eq_cellForH st.heap a o reg _ hget hcong
  have hcell : cellForH st'.heap a selfKey =
      alook (fireSequence o₁ o.len k (rawRead o k) v reg) selfKey := by
    rw [hst]
    unfold cellForH
    rw [Heap.get_set_self]
  by_cases hks : k = selfKey
  · subst hks
    refine ⟨⟨Val.undef, c.fires + 2⟩, ?_, rfl, by show c.fires < c.fires + 2; omega⟩
    rw [hcell, fireSequence_self_write o₁ o.len (rawRead o selfKey) v reg, hreg, hself]
  · refine ⟨⟨Val.undef, c.fires + 1⟩, ?_, rfl, by show c.fires < c.fires + 1; omega⟩
    rw [hcell, fireSequence_self o₁ o.len k (rawRead o k) v reg hks, hreg, hself]
    rfl

/-- The concrete sample for the C6 witness: a node with a tracked self cell. -/
def objSelf : Obj :=
  { arr := false, frozen := false, len := 0
    props := [(Key.str "x", Val.num 1)], proxy := none
    cells := some [(selfKey, ⟨Val.undef, 0⟩)] }

def objSelfAfter : Obj :=
  { arr := false, frozen := false, len := 0
    props := [(Key.str "x", Val.num 7)], proxy := none
    cells := some [(selfKey, ⟨Val.undef, 1⟩), (Key.str "x", ⟨Val.num 7, 1⟩)] }

def stSelf : St := ⟨⟨[(0, HObj.obj objSelf)]⟩, true, false, []⟩

def stSelfAfter : St := ⟨⟨[(0, HObj.obj objSelfAfter)]⟩, true, false, []⟩

theorem c6_every_mutation_fires_self_cell_witness :
    cellForH stSelf.heap 0 selfKey = some ⟨Val.undef, 0⟩ ∧
      setProperty stSelf 0 (Key.str "x") (Val.num 7) false = some stSelfAfter ∧
      (∃ c', cellForH stSelfAfter.heap 0 selfKey = some c' ∧
        c'.payload = Val.undef ∧ (0 : Nat) < c'.fires) :=
  ⟨by decide, by decide,
    c6_every_mutation_fires_self_cell stSelf 0 (Key.str "x") (Val.num 7) false
      objSelf ⟨Val.undef, 0⟩ stSelfAfter
      (by decide) (by decide) (by decide) (by decide)⟩

theorem cellForH_set_self_some (h : Heap) (a : Nat) (o' : Obj) (reg : Registry)
    (hc : o'.cells = some reg) (nk : Key) :
    cellForH (h.set a (HObj.obj o')) a nk = alook reg nk := by
  unfold cellForH
  rw [Heap.get_set_self]
  simp only []
  rw [hc]

/-- Forward computation of a successful, non-idempotent setProperty, for a
key where getDataNode cannot find an inherited Object.prototype member. -/
theorem setProperty_eq (st : St) (a : Nat) (k : Key) (v : Val) (del : Bool) (o o₁ : Obj)
    (reg : Registry)
    (hget : st.heap.get a = some (HObj.obj o))
    (hni : ¬(del = false ∧ rawRead o k = v))
    (hmut : (if del then rawDelete o k else rawWrite o k v) = some o₁)
    (hens : ensureRegistry o₁ = some reg)
    (hk : protoMember k = false ∨ (alook reg k).isSome = true) :
    setProperty st a k v del = some { st with heap := st.heap.set a (HObj.obj { o₁ with
      cells := some (fireSequence o₁ o.len k (rawRead o k) v reg) }) } := by
  obtain ⟨cr, hnode⟩ := getDataNode_isSome reg k (rawRead o k) hk
  simp only [setProperty, hget]
  rw [if_neg hni, hmut]
  simp only []
  rw [hens]
  simp only []
  rw [hnode]
  simp only [Option.some.injEq]
  unfold fireSequence
  rw [getDataNode_some_eq_touch reg k (rawRead o k) v cr hnode]

/-- setProperty throws when the key names an Object.prototype member and no
cell for it exists: getDataNode finds the inherited member and node.$(...)
is not callable. -/
theorem setProperty_throws (st : St) (a : Nat) (k : Key) (v : Val) (del : Bool) (o : Obj)
    (hget : st.heap.get a = some (HObj.obj o))
    (hni : ¬(del = false ∧ rawRead o k = v))
    (hpm : protoMember k = true)
    (hcell : cellForH st.heap a k = none) :
    setProperty st a k v del = none := by
  simp only [setProperty, hget]
  rw [if_neg hni]
  cases hmut : (if del then rawDelete o k else rawWrite o k v) with
  | none => rfl
  | some o₁ =>
    simp only []
    cases hens : ensureRegistry o₁ with
    | none => rfl
    | some reg =>
      simp only []
      have hpres := mut_preserves o o₁ k v del hmut
      have hcong : ensureRegistry o = some reg :=
        (ensureRegistry_congr o o₁ hpres.2.2.2 hpres.2.1).symm.trans hens
      have habs : alook reg k = none :=
        (alook_reg_eq_cellForH st.heap a o reg k hget hcong).trans hcell
      rw [getDataNode_none_of_proto_absent reg k (rawRead o k) hpm habs]

/-- C10 counterexample: deleting the absent property "toString" inside a
transaction does not create-and-fire its Cell — it throws: getDataNode's
nodes["toString"] finds the inherited Object.prototype.toString and
node.$(...) is not callable.  This refutes the claim's universal "for every
property key p". -/
theorem c10_counterexample_delete_proto_member_throws :
    alook obj0.props (Key.str "toString") = none ∧
      setProperty stOpen 0 (Key.str "toString") Val.undef true = none := by
  constructor <;> decide

/-- C10 (amended): deleting an absent property that is neither the reserved
key "_" nor an Object.prototype member name is not a no-op: the raw node is
unchanged, yet the Cell for the key is created-and-fired with payload
undefined, and the self cell fires when it exists; deleting an absent
property named after an Object.prototype member instead throws. -/
theorem c10_delete_absent_still_fires :
    (∀ st a k o, st.heap.get a = some (HObj.obj o) →
      o.frozen = false →
      alook o.props k = none →
      (o.arr = true → k ≠ Key.str "length") →
      k ≠ selfKey →
      protoMember k = false →
      ∃ st', setProperty st a k Val.undef true = some st' ∧
        rawAt st' a = rawAt st a ∧
        cellForH st'.heap a k =
          some ⟨Val.undef, oldFiresH st.heap a k + 1⟩ ∧
        cellForH st'.heap a selfKey =
          (cellForH st.heap a selfKey).map (fun c => ⟨Val.undef, c.fires + 1⟩)) ∧
    (∀ st a k o, st.heap.get a = some (HObj.obj o) →
      protoMember k = true →
      cellForH st.heap a k = none →
      setProperty st a k Val.undef true = none) := by
  constructor
  · intro st a k o hget hfroz habs hlen hks hpm
    have hmut : (if true then rawDelete o k else rawWrite o k Val.undef) =
        some { o with props := aerase o.props k } := by
      simp only [if_true]
      unfold rawDelete
      rw [if_neg (fun hh => hlen hh.1 hh.2), if_neg (by rw [hfroz]; simp)]
    have hens : ensureRegistry { o with props := aerase o.props k } = some (o.cells.getD []) :=
      ensureRegistry_of_not_frozen _ hfroz
    have hni : ¬((true : Bool) = false ∧ rawRead o k = Val.undef) := by simp
    have hsp := setProperty_eq st a k Val.undef true o _ _ hget hni hmut hens (Or.inl hpm)
    have hregk : ∀ nk, alook (o.cells.getD []) nk = cellForH st.heap a nk := by
      intro nk
      exact alook_reg_eq_cellForH st.heap a o _ nk hget (ensureRegistry_of_not_frozen _ hfroz)
    refine ⟨_, hsp, ?_, ?_, ?_⟩
    · unfold rawAt
      rw [Heap.get_set_self, hget]
      simp only [Option.some.injEq]
      rw [aerase_of_absent o.props k habs]
    · rw [cellForH_set_self_some st.heap a _ _ rfl,
        fireSequence_prop _ _ _ _ _ _ (fun hf => absurd rfl hf.2) hks, hregk]
      unfold oldFiresH
      cases cellForH st.heap a k <;> rfl
    · rw [cellForH_set_self_some st.heap a _ _ rfl,
        fireSequence_self _ _ _ _ _ _ hks, hregk]
  · intro st a k o hget hpm hcell
    have hni : ¬((true : Bool) = false ∧ rawRead o k = Val.undef) := by simp
    exact setProperty_throws st a k Val.undef true o hget hni hpm hcell

theorem c10_delete_absent_still_fires_witness :
    (∃ st', setProperty stOpen 0 (Key.str "y") Val.undef true = some st' ∧
      rawAt st' 0 = rawAt stOpen 0 ∧
      cellForH st'.heap 0 (Key.str "y") =
        some ⟨Val.undef, oldFiresH stOpen.heap 0 (Key.str "y") + 1⟩ ∧
      cellForH st'.heap 0 selfKey =
        (cellForH stOpen.heap 0 selfKey).map (fun c => ⟨Val.undef, c.fires + 1⟩)) ∧
    setProperty stOpen 0 (Key.str "valueOf") Val.undef true = none :=
  ⟨c10_delete_absent_still_fires.1 stOpen 0 (Key.str "y") obj0
      (by decide) (by decide) (by decide) (by decide) (by decide) (by decide),
    c10_delete_absent_still_fires.2 stOpen 0 (Key.str "valueOf") obj0
      (by decide) (by decide) (by decide)⟩

/-- The array length of the node at an address. -/
def lenAt (h : Heap) (a : Nat) : Option Nat :=
  match h.get a with
  | some (HObj.obj o) => some o.len
  | _ => none

theorem lenAt_set (h : Heap) (a : Nat) (o' : Obj) :
    lenAt (h.set a (HObj.obj o')) a = some o'.len := by
  unfold lenAt
  rw [Heap.get_set_self]

/-- C7: (a) any setProperty mutation on an array that changes its length
additionally fires the length Cell, creating it when absent, with the new
length as payload; (b) removing the last element as a pop does — delete of
the last index, then assignment of the shrunk length — fires the index
Cell once and the length Cell twice. -/
theorem c7_length_cell_fires_on_length_change :
    (∀ st a k v del o st', st.heap.get a = some (HObj.obj o) → o.arr = true →
      setProperty st a k v del = some st' → lenAt st'.heap a ≠ lenAt st.heap a →
      ∃ n c, lenAt st'.heap a = some n ∧
        cellForH st'.heap a (Key.str "length") = some c ∧
        c.payload = Val.num n ∧
        oldFiresH st.heap a (Key.str "length") + 1 ≤ c.fires) ∧
    (∀ st a n o, st.heap.get a = some (HObj.obj o) → o.arr = true → o.frozen = false →
      o.len = n + 1 →
      ∃ st₁ st₂,
        setProperty st a (Key.idx n) Val.undef true = some st₁ ∧
        setProperty st₁ a (Key.str "length") (Val.num n) false = some st₂ ∧
        cellForH st₂.heap a (Key.idx n) =
          some ⟨Val.undef, oldFiresH st.heap a (Key.idx n) + 1⟩ ∧
        cellForH st₂.heap a (Key.str "length") =
          some ⟨Val.num n, oldFiresH st.heap a (Key.str "length") + 2⟩) := by
  constructor
  · intro st a k v del o st' hget harr hset hchg
    have hni : ¬(del = false ∧ rawRead o k = v) := by
      intro hid
      obtain ⟨hd, hv⟩ := hid
      subst hd
      rw [setProperty_noop_of_idem st a k v o hget hv] at hset
      injection hset with hh
      exact hchg (by rw [← hh])
    obtain ⟨o₁, reg, hmut, hens, _, hst⟩ := setProperty_inv st a k v del o st' hget hni hset
    have hpres := mut_preserves o o₁ k v del hmut
    have hlen' : lenAt st'.heap a = some o₁.len := by
      rw [hst]
      exact lenAt_set st.heap a _
    have hlen0 : lenAt st.heap a = some o.len := by
      unfold lenAt
      rw [hget]
    have hne : o₁.len ≠ o.len := by
      intro he
      apply hchg
      rw [hlen', hlen0, he]
    have hfire : o₁.arr = true ∧ o₁.len ≠ o.len := ⟨by rw [hpres.1]; exact harr, hne⟩
    have hregk : ∀ nk, alook reg nk = cellForH st.heap a nk := by
      intro nk
      exact alook_reg_eq_cellForH st.heap a o reg nk hget
        ((ensureRegistry_congr o o₁ hpres.2.2.2 hpres.2.1).symm.trans hens)
    have hcells : cellForH st'.heap a (Key.str "length") =
        alook (fireSequence o₁ o.len k (rawRead o k) v reg) (Key.str "length") := by
      rw [hst]
      exact cellForH_set_self_some st.heap a _ _ rfl _
    by_cases hkl : k = Key.str "length"
    · subst hkl
      refine ⟨o₁.len, ⟨Val.num o₁.len,
        oldFiresH st.heap a (Key.str "length") + 2⟩, hlen', ?_, rfl, Nat.le_succ _⟩
      rw [hcells, fireSequence_length_self_write o₁ o.len (rawRead o (Key.str "length")) v reg
        hfire, hregk]
      unfold oldFiresH
      cases cellForH st.heap a (Key.str "length") <;> rfl
    · refine ⟨o₁.len, ⟨Val.num o₁.len,
        oldFiresH st.heap a (Key.str "length") + 1⟩, hlen', ?_, rfl, Nat.le_refl _⟩
      rw [hcells, fireSequence_length_of_changed o₁ o.len k (rawRead o k) v reg hfire hkl,
        hregk]
      unfold oldFiresH
      cases cellForH st.heap a (Key.str "length") <;> rfl
  · intro st a n o hget harr hfroz hlen
    have hni₁ : ¬((true : Bool) = false ∧ rawRead o (Key.idx n) = Val.undef) := by simp
    have hmut₁ : (if true then rawDelete o (Key.idx n) else rawWrite o (Key.idx n) Val.undef) =
        some { o with props := aerase o.props (Key.idx n) } := by
      simp only [if_true]
      unfold rawDelete
      rw [if_neg (fun hh => Key.noConfusion hh.2), if_neg (by rw [hfroz]; simp)]
    have hens₁ : ensureRegistry { o with props := aerase o.props (Key.idx n) } =
        some (o.cells.getD []) := ensureRegistry_of_not_frozen _ hfroz
    have hsp₁ := setProperty_eq st a (Key.idx n) Val.undef true o _ _ hget hni₁ hmut₁ hens₁
      (Or.inl rfl)
    have hregk : ∀ nk, alook (o.cells.getD []) nk = cellForH st.heap a nk := by
      intro nk
      exact alook_reg_eq_cellForH st.heap a o _ nk hget (ensureRegistry_of_not_frozen _ hfroz)
    generalize hrega : fireSequence { o with props := aerase o.props (Key.idx n) } o.len
      (Key.idx n) (rawRead o (Key.idx n)) Val.undef (o.cells.getD []) = regA at hsp₁
    set st₁ : St := { st with heap := st.heap.set a (HObj.obj
      { { o with props := aerase o.props (Key.idx n) } with cells := some regA }) } with hst₁
    have hget₂ : st₁.heap.get a = some (HObj.obj
        { { o with props := aerase o.props (Key.idx n) } with cells := some regA }) := by
      rw [hst₁]
      exact Heap.get_set_self _ _ _
    have hregaval : ∀ nk, alook regA nk =
        alook (fireSelf (touch (o.cells.getD []) (Key.idx n)
          (rawRead o (Key.idx n)) Val.undef)) nk := by
      intro nk
      rw [← hrega]
      unfold fireSequence
      rw [alook_fireStep2_no_change _ _ _ (fun hh => hh.2 rfl)]
    have hrr₂ : rawRead { { o with props := aerase o.props (Key.idx n) } with
        cells := some regA } (Key.str "length") = Val.num o.len := by
      unfold rawRead
      rw [if_pos ⟨harr, rfl⟩]
    have hni₂ : ¬((false : Bool) = false ∧ rawRead { { o with props := aerase o.props (Key.idx n) } with
        cells := some regA } (Key.str "length") = Val.num n) := by
      intro hid
      have hv := hid.2
      rw [hrr₂] at hv
      injection hv with hv
      rw [hlen] at hv
      exact Nat.succ_ne_self n hv
    have hfr₂ : ({ { o with props := aerase o.props (Key.idx n) } with
        cells := some regA } : Obj).frozen = false := hfroz
    have hmut₂ : (if false then rawDelete { { o with props := aerase o.props (Key.idx n) } with
          cells := some regA } (Key.str "length")
        else rawWrite { { o with props := aerase o.props (Key.idx n) } with
          cells := some regA } (Key.str "length") (Val.num n)) =
        some { { { o with props := aerase o.props (Key.idx n) } with cells := some regA } with
          len := n
          props := (aerase o.props (Key.idx n)).filter (fun q =>
            match q.1 with
            | Key.idx i => decide (i < n)
            | Key.str _ => true) } := by
      simp only [if_false, Bool.false_eq_true]
      unfold rawWrite
      rw [if_neg (by rw [hfr₂]; simp), if_pos harr, if_pos rfl]
    have hsp₂ := setProperty_eq st₁ a (Key.str "length") (Val.num n) false _ _ regA hget₂ hni₂
      hmut₂ rfl (Or.inl (by decide))
    refine ⟨_, _, hsp₁, hsp₂, ?_, ?_⟩
    · rw [cellForH_set_self_some _ a _ _ rfl]
      unfold fireSequence
      rw [alook_fireSelf_prop _ _ (fun hh => Key.noConfusion hh),
        alook_fireStep2_prop_ne_length _ _ _ _ (fun hh => Key.noConfusion hh),
        alook_touch_ne _ _ _ _ _ (fun hh => Key.noConfusion hh),
        hregaval, alook_fireSelf_prop _ _ (fun hh => Key.noConfusion hh),
        alook_touch_self, hregk]
      unfold oldFiresH
      cases cellForH st.heap a (Key.idx n) <;> rfl
    · rw [cellForH_set_self_some _ a _ _ rfl]
      have hfire₂ : ({ { { o with props := aerase o.props (Key.idx n) } with cells := some regA } with
          len := n
          props := (aerase o.props (Key.idx n)).filter (fun q =>
            match q.1 with
            | Key.idx i => decide (i < n)
            | Key.str _ => true) } : Obj).arr = true ∧
          ({ { { o with props := aerase o.props (Key.idx n) } with cells := some regA } with
          len := n
          props := (aerase o.props (Key.idx n)).filter (fun q =>
            match q.1 with
            | Key.idx i => decide (i < n)
            | Key.str _ => true) } : Obj).len ≠
          ({ { o with props := aerase o.props (Key.idx n) } with cells := some regA } : Obj).len := by
        refine ⟨harr, fun hh => ?_⟩
        have hh' : n = o.len := hh
        rw [hlen] at hh'
        exact Nat.succ_ne_self n hh'.symm
      rw [fireSequence_length_self_write _ _ _ _ _ hfire₂,
        hregaval, alook_fireSelf_prop _ _ length_ne_selfKey,
        alook_touch_ne _ _ _ _ _ (fun hh => Key.noConfusion hh), hregk]
      unfold oldFiresH
      cases cellForH st.heap a (Key.str "length") <;> rfl

/-- v is the wrapped form of the raw value rv: identical for non-aggregates,
a view (proxy) of the aggregate otherwise. -/
def wrapsVal (h : Heap) (v rv : Val) : Prop :=
  match rv with
  | Val.ref b => ∃ q, v = Val.ref q ∧ h.get q = some (HObj.prox b)
  | _ => v = rv

/-- Every property cell's payload agrees with the raw value of its key —
the invariant the store maintains between cell payloads and RawNode.  The
reserved cell at "_" is exempt: trackSelf seeds it undefined and the self
step resets it to undefined regardless of the raw property "_". -/
def cellsSyncedB (h : Heap) : Bool :=
  h.mem.all (fun p =>
    match p.2 with
    | HObj.obj o =>
      match o.cells with
      | some reg => reg.all (fun rc =>
          if rc.1 = selfKey then true else rc.2.payload == rawRead o rc.1)
      | none => true
    | HObj.prox _ => true)

/-- The read value can be wrapped without failure: a referenced aggregate
either has a consistent cached view marker or is unfrozen and unmarked. -/
def ReadTargetOK (h : Heap) (rv : Val) : Prop :=
  ∀ b, rv = Val.ref b →
    ∃ ob, h.get b = some (HObj.obj ob) ∧
      ((∃ p, ob.proxy = some p ∧ h.get p = some (HObj.prox b)) ∨
       (ob.proxy = none ∧ ob.frozen = false))

theorem cellsSynced_payload (h : Heap) (a : Nat) (o : Obj) (reg : Registry) (k : Key)
    (c : Cell) (hs : cellsSyncedB h = true) (hget : h.get a = some (HObj.obj o))
    (hcells : o.cells = some reg) (hc : alook reg k = some c) (hks : k ≠ selfKey) :
    c.payload = rawRead o k := by
  unfold cellsSyncedB at hs
  rw [List.all_eq_true] at hs
  have h1 := hs _ (alook_mem _ _ _ hget)
  simp only [] at h1
  rw [hcells] at h1
  simp only [] at h1
  rw [List.all_eq_true] at h1
  have h2 := h1 _ (alook_mem _ _ _ hc)
  simp only [] at h2
  rw [if_neg hks, beq_iff_eq] at h2
  exact h2

theorem finishRead_ok (st₁ : St) (rv : Val) (hok : ReadTargetOK st₁.heap rv) :
    ∃ st' v, finishRead st₁ rv = some (st', v) ∧ st'.deps = st₁.deps ∧
      (∀ b nk, cellForH st'.heap b nk = cellForH st₁.heap b nk) ∧ wrapsVal st'.heap v rv := by
  cases rv with
  | undef => exact ⟨st₁, Val.undef, rfl, rfl, fun b nk => rfl, rfl⟩
  | num n => exact ⟨st₁, Val.num n, rfl, rfl, fun b nk => rfl, rfl⟩
  | ref b =>
    obtain ⟨ob, hg, hcase⟩ := hok b rfl
    have hsome : (st₁.heap.get b).isSome = true := by rw [hg]; rfl
    cases hcase with
    | inl hp =>
      obtain ⟨p, hpx, ht⟩ := hp
      have hw : wrapV st₁.heap b = some (st₁.heap, p) := by
        simp only [wrapV, hg, hpx]
      refine ⟨{ st₁ with heap := st₁.heap }, Val.ref p, ?_, rfl, fun b' nk => rfl, ?_⟩
      · simp only [finishRead]
        rw [if_pos hsome, hw]
      · exact ⟨p, rfl, ht⟩
    | inr hp =>
      obtain ⟨hpx, hf⟩ := hp
      have hw : wrapV st₁.heap b = some ((st₁.heap.set b
          (HObj.obj { ob with proxy := some st₁.heap.fresh })).set st₁.heap.fresh
          (HObj.prox b), st₁.heap.fresh) := by
        simp only [wrapV, hg, hpx, hf]
        simp
      refine ⟨{ st₁ with heap := (st₁.heap.set b (HObj.obj { ob with proxy := some st₁.heap.fresh })).set st₁.heap.fresh (HObj.prox b) }, Val.ref st₁.heap.fresh, ?_, rfl, ?_, ?_⟩
      · simp only [finishRead]
        rw [if_pos hsome, hw]
      · intro b' nk
        exact wrapV_cellForH _ _ _ _ hw b' nk
      · exact ⟨st₁.heap.fresh, rfl, Heap.get_set_self _ _ _⟩

theorem readTargetOK_set_registry (h : Heap) (a : Nat) (o : Obj) (reg : Registry) (rv : Val)
    (hget : h.get a = some (HObj.obj o)) (hok : ReadTargetOK h rv) :
    ReadTargetOK (h.set a (HObj.obj { o with cells := some reg })) rv := by
  intro b hb
  obtain ⟨ob, hg, hcase⟩ := hok b hb
  by_cases hba : b = a
  · subst hba
    have hobo : ob = o := by
      rw [hget] at hg
      injection hg with hh
      exact (HObj.obj.inj hh).symm
    subst hobo
    refine ⟨{ ob with cells := some reg }, Heap.get_set_self _ _ _, ?_⟩
    cases hcase with
    | inl hp =>
      obtain ⟨p, hpx, ht⟩ := hp
      have hpb : p ≠ b := by
        intro he
        rw [he, hg] at ht
        cases ht
      exact Or.inl ⟨p, hpx, by rw [Heap.get_set_ne _ _ _ _ hpb]; exact ht⟩
    | inr hp => exact Or.inr hp
  · refine ⟨ob, by rw [Heap.get_set_ne _ _ _ _ hba]; exact hg, ?_⟩
    cases hcase with
    | inl hp =>
      obtain ⟨p, hpx, ht⟩ := hp
      have hpa : p ≠ a := by
        intro he
        rw [he, hget] at ht
        cases ht
      exact Or.inl ⟨p, hpx, by rw [Heap.get_set_ne _ _ _ _ hpa]; exact ht⟩
    | inr hp => exact Or.inr hp

/-- A node whose raw property "_" holds 5 before any tracking. -/
def objT0 : Obj :=
  { arr := false, frozen := false, len := 0
    props := [(Key.str "_", Val.num 5)], proxy := none, cells := none }

def stT0 : St := ⟨⟨[(0, HObj.obj objT0)]⟩, false, true, []⟩

/-- The same node after trackSelf: the reserved self cell now sits at the
registry key "_", payload undefined. -/
def objT : Obj :=
  { arr := false, frozen := false, len := 0
    props := [(Key.str "_", Val.num 5)], proxy := none
    cells := some [(Key.str "_", ⟨Val.undef, 0⟩)] }

def stT : St := ⟨⟨[(0, HObj.obj objT)]⟩, false, false, []⟩

/-- C9 counterexample: once trackSelf has materialized nodes._ (here by a
tracked enumeration), an untracked read of the user property "_" is no
longer transparent — the get trap's nodes.hasOwnProperty check hits the
self cell and the read returns its payload (undefined) instead of the raw
value 5.  This refutes the claim's universal "for every property key p". -/
theorem c9_counterexample_self_cell_shadows_read :
    trackSelf stT0 0 =
      some ⟨⟨[(0, HObj.obj objT)]⟩, false, true, [(0, selfKey)]⟩ ∧
      rawRead objT (Key.str "_") = Val.num 5 ∧
      stT.reaction = false ∧
      getTrap stT 0 (Key.str "_") = some (stT, Val.undef) ∧
      Val.undef ≠ Val.num 5 := by
  refine ⟨by decide, by decide, rfl, by decide, by decide⟩

/-- C9 (amended): reading any ordinary property other than the reserved key
"_" on a view with no tracking context active succeeds, returns the raw
value (wrapped when it is an aggregate), records no dependency and
materializes no Cell; a read of "_" can instead surface the self cell's
payload (see the counterexample). -/
theorem c9_untracked_read_is_transparent (st : St) (a : Nat) (k : Key) (o : Obj)
    (hget : st.heap.get a = some (HObj.obj o))
    (hreact : st.reaction = false)
    (hsync : cellsSyncedB st.heap = true)
    (hk : k ≠ Key.str "__proto__")
    (hks : k ≠ selfKey)
    (hreg : (ensureRegistry o).isSome = true)
    (hok : ReadTargetOK st.heap (rawRead o k)) :
    ∃ st' v, getTrap st a k = some (st', v) ∧
      st'.deps = st.deps ∧
      (∀ b nk, cellForH st'.heap b nk = cellForH st.heap b nk) ∧
      wrapsVal st'.heap v (rawRead o k) := by
  cases he : ensureRegistry o with
  | none => rw [he] at hreg; cases hreg
  | some reg =>
    have hok₁ : ReadTargetOK (st.heap.set a (HObj.obj { o with cells := some reg }))
        (rawRead o k) := readTargetOK_set_registry st.heap a o reg _ hget hok
    cases htr : alook reg k with
    | some c =>
      have hcells : o.cells = some reg := by
        unfold ensureRegistry at he
        cases hc : o.cells with
        | some r => rw [hc] at he; injection he with hh; rw [hh]
        | none =>
          rw [hc] at he
          cases hf : o.frozen with
          | true => rw [hf] at he; cases he
          | false =>
            rw [hf] at he
            simp only [if_false, Bool.false_eq_true, Option.some.injEq] at he
            subst he
            cases htr
      have hpay : c.payload = rawRead o k :=
        cellsSynced_payload st.heap a o reg k c hsync hget hcells htr hks
      obtain ⟨st', v, hfr, hdeps, hcellp, hwrap⟩ :=
        finishRead_ok ⟨st.heap.set a (HObj.obj { o with cells := some reg }),
          st.writing, false, st.deps⟩ (rawRead o k) hok₁
      refine ⟨st', v, ?_, hdeps, ?_, hwrap⟩
      · simp only [getTrap, hget, he, htr, hreact, Bool.false_eq_true, if_false]
        rw [if_neg hk, hpay]
        exact hfr
      · intro b nk
        rw [hcellp b nk]
        exact cellForH_set_registry st.heap a o reg hget he b nk
    | none =>
      obtain ⟨st', v, hfr, hdeps, hcellp, hwrap⟩ :=
        finishRead_ok ⟨st.heap.set a (HObj.obj { o with cells := some reg }),
          st.writing, false, st.deps⟩ (rawRead o k) hok₁
      refine ⟨st', v, ?_, hdeps, ?_, hwrap⟩
      · simp only [getTrap, hget, he, htr, hreact, Bool.false_eq_true, false_and, if_false]
        rw [if_neg hk]
        exact hfr
      · intro b nk
        rw [hcellp b nk]
        exact cellForH_set_registry st.heap a o reg hget he b nk

theorem c9_untracked_read_is_transparent_witness :
    ∃ st' v, getTrap stClosed 0 (Key.str "x") = some (st', v) ∧
      st'.deps = stClosed.deps ∧
      (∀ b nk, cellForH st'.heap b nk = cellForH stClosed.heap b nk) ∧
      wrapsVal st'.heap v (rawRead obj0 (Key.str "x")) :=
  c9_untracked_read_is_transparent stClosed 0 (Key.str "x") obj0
    (by decide) rfl (by decide) (by decide) (by decide) (by decide)
    (fun b hb => Val.noConfusion hb)

def objArr : Obj :=
  { arr := true, frozen := false, len := 3
    props := [(Key.idx 0, Val.num 10), (Key.idx 1, Val.num 20), (Key.idx 2, Val.num 30)]
    proxy := none, cells := none }

def stArr : St := ⟨⟨[(0, HObj.obj objArr)]⟩, true, false, []⟩

/-- The sample array store after assigning length := 2 inside a transaction. -/
def objArrL : Obj :=
  { arr := true, frozen := false, len := 2
    props := [(Key.idx 0, Val.num 10), (Key.idx 1, Val.num 20)]
    proxy := none, cells := some [(Key.str "length", ⟨Val.num 2, 2⟩)] }

def stArrL : St := ⟨⟨[(0, HObj.obj objArrL)]⟩, true, false, []⟩

theorem c7_length_cell_fires_on_length_change_witness :
    setProperty stArr 0 (Key.str "length") (Val.num 2) false = some stArrL ∧
      (∃ n c, lenAt stArrL.heap 0 = some n ∧
        cellForH stArrL.heap 0 (Key.str "length") = some c ∧
        c.payload = Val.num n ∧
        oldFiresH stArr.heap 0 (Key.str "length") + 1 ≤ c.fires) ∧
      (∃ st₁ st₂,
        setProperty stArr 0 (Key.idx 2) Val.undef true = some st₁ ∧
        setProperty st₁ 0 (Key.str "length") (Val.num 2) false = some st₂ ∧
        cellForH st₂.heap 0 (Key.idx 2) =
          some ⟨Val.undef, oldFiresH stArr.heap 0 (Key.idx 2) + 1⟩ ∧
        cellForH st₂.heap 0 (Key.str "length") =
          some ⟨Val.num 2, oldFiresH stArr.heap 0 (Key.str "length") + 2⟩) :=
  ⟨by decide,
    c7_length_cell_fires_on_length_change.1 stArr 0 (Key.str "length") (Val.num 2) false
      objArr stArrL (by decide) (by decide) (by decide) (by decide),
    c7_length_cell_fires_on_length_change.2 stArr 0 2 objArr
      (by decide) (by decide) (by decide) (by decide)⟩

/-! Inversion lemmas for unwrap. -/

theorem unwrap_undef (fuel : Nat) (h : Heap) (vis : List Nat) :
    unwrap fuel h Val.undef vis = some (h, Val.undef, vis) := by
  unfold unwrap
  rfl

theorem unwrap_num (fuel : Nat) (h : Heap) (n : Nat) (vis : List Nat) :
    unwrap fuel h (Val.num n) vis = some (h, Val.num n, vis) := by
  unfold unwrap
  rfl

theorem unwrap_prox (fuel : Nat) (h : Heap) (p t : Nat) (vis : List Nat)
    (hg : h.get p = some (HObj.prox t)) :
    unwrap fuel h (Val.ref p) vis = some (h, Val.ref t, vis) := by
  unfold unwrap
  rw [hg]

theorem unwrap_dangling (fuel : Nat) (h : Heap) (b : Nat) (vis : List Nat)
    (hg : h.get b = none) :
    unwrap fuel h (Val.ref b) vis = some (h, Val.ref b, vis) := by
  unfold unwrap
  rw [hg]

theorem unwrap_visited_inv (fuel : Nat) (h : Heap) (b : Nat) (vis : List Nat) (o : Obj)
    (r : Option (Heap × Val × List Nat))
    (hg : h.get b = some (HObj.obj o)) (hvis : b ∈ vis)
    (hu : unwrap fuel h (Val.ref b) vis = r) :
    some (h, Val.ref b, vis) = r := by
  unfold unwrap at hu
  split at hu
  · rename_i t heq
    rw [hg] at heq
    cases heq
  · rename_i o2 heq
    rw [if_pos hvis] at hu
    exact hu
  · rename_i heq
    rw [hg] at heq
    cases heq

theorem unwrap_zero_inv (h : Heap) (b : Nat) (vis : List Nat) (o : Obj)
    (r : Option (Heap × Val × List Nat))
    (hg : h.get b = some (HObj.obj o)) (hvis : b ∉ vis)
    (hu : unwrap 0 h (Val.ref b) vis = r) :
    none = r := by
  unfold unwrap at hu
  split at hu
  · rename_i t heq
    rw [hg] at heq
    cases heq
  · rename_i o2 heq
    rw [if_neg hvis] at hu
    exact hu
  · rename_i heq
    rw [hg] at heq
    cases heq

theorem unwrap_deep_inv (f : Nat) (h : Heap) (b : Nat) (vis : List Nat) (o : Obj)
    (r : Option (Heap × Val × List Nat))
    (hg : h.get b = some (HObj.obj o)) (hvis : b ∉ vis) (hfz : o.frozen = false)
    (hu : unwrap (f + 1) h (Val.ref b) vis = r) :
    (match unwrapItemsWith (fun h' v' vis' => unwrap f h' v' vis') h b
        (if o.arr then (List.range o.len).map Key.idx else o.props.map (fun p => p.1))
        (b :: vis) with
      | some (h₂, vis₂) => some (h₂, Val.ref b, vis₂)
      | none => none) = r := by
  unfold unwrap at hu
  split at hu
  · rename_i t heq
    rw [hg] at heq
    cases heq
  · rename_i o2 heq
    rw [hg] at heq
    injection heq with heq
    cases HObj.obj.inj heq
    rw [if_neg hvis] at hu
    split at hu
    · rename_i heq2
      cases heq2
    · rename_i f2 heq2
      injection heq2 with heq2
      subst heq2
      rw [hfz] at hu
      simp only [Bool.false_eq_true, if_false] at hu
      exact hu
  · rename_i heq
    rw [hg] at heq
    cases heq

theorem unwrap_frozen_inv (f : Nat) (h : Heap) (b : Nat) (vis : List Nat) (o : Obj)
    (r : Option (Heap × Val × List Nat))
    (hg : h.get b = some (HObj.obj o)) (hvis : b ∉ vis) (hfz : o.frozen = true)
    (hu : unwrap (f + 1) h (Val.ref b) vis = r) :
    (match unwrapItemsWith (fun h' v' vis' => unwrap f h' v' vis')
        (h.set h.fresh (HObj.obj { arr := o.arr, frozen := false, len := o.len, props := (if o.arr then o.props.filter (fun q => isIdxKey q.1) else o.props), proxy := none, cells := none }))
        h.fresh
        (if o.arr then (List.range o.len).map Key.idx else o.props.map (fun p => p.1))
        vis with
      | some (h₂, vis₂) => some (h₂, Val.ref h.fresh, vis₂)
      | none => none) = r := by
  unfold unwrap at hu
  split at hu
  · rename_i t heq
    rw [hg] at heq
    cases heq
  · rename_i o2 heq
    rw [hg] at heq
    injection heq with heq
    cases HObj.obj.inj heq
    rw [if_neg hvis] at hu
    split at hu
    · rename_i heq2
      cases heq2
    · rename_i f2 heq2
      injection heq2 with heq2
      subst heq2
      rw [if_pos hfz] at hu
      exact hu
  · rename_i heq
    rw [hg] at heq
    cases heq

theorem unwrapItemsWith_nil (u : Heap → Val → List Nat → Option (Heap × Val × List Nat))
    (h : Heap) (a : Nat) (vis : List Nat) :
    unwrapItemsWith u h a [] vis = some (h, vis) := rfl

theorem unwrapItemsWith_cons_inv (u : Heap → Val → List Nat → Option (Heap × Val × List Nat))
    (h : Heap) (a : Nat) (k : Key) (rest : List Key) (vis : List Nat) (o : Obj)
    (r : Option (Heap × List Nat))
    (hg : h.get a = some (HObj.obj o))
    (hu : unwrapItemsWith u h a (k :: rest) vis = r) :
    (match u h (rawRead o k) vis with
      | some (h₁, v₁, vis₁) =>
        unwrapItemsWith u (if v₁ = rawRead o k then h₁ else writeRawNoThrow h₁ a k v₁)
          a rest vis₁
      | none => none) = r := by
  simp only [unwrapItemsWith] at hu
  split at hu
  · rename_i o2 heq
    rw [hg] at heq
    injection heq with heq
    cases HObj.obj.inj heq
    exact hu
  · rename_i x hne
    exact absurd hg (hne o)

/-! Raw (view-free, unfrozen) heaps: unwrap is the identity on them. -/

def rawValB (h : Heap) : Val → Bool
  | Val.ref b =>
    match h.get b with
    | some (HObj.prox _) => false
    | _ => true
  | _ => true

def rawHeapB (h : Heap) : Bool :=
  h.mem.all (fun p =>
    match p.2 with
    | HObj.obj o => !o.frozen && o.props.all (fun q => rawValB h q.2)
    | HObj.prox _ => true)

theorem rawValB_ref (h : Heap) (b : Nat) :
    rawValB h (Val.ref b) =
      (match h.get b with | some (HObj.prox _) => false | _ => true) := rfl

theorem rawValB_prox_false (h : Heap) (b t : Nat) (hg : h.get b = some (HObj.prox t)) :
    rawValB h (Val.ref b) = false := by
  rw [rawValB_ref, hg]

theorem rawHeapB_frozen (h : Heap) (a : Nat) (o : Obj) (hraw : rawHeapB h = true)
    (hget : h.get a = some (HObj.obj o)) : o.frozen = false := by
  unfold rawHeapB at hraw
  rw [List.all_eq_true] at hraw
  have h1 := hraw _ (alook_mem _ _ _ hget)
  simp only [] at h1
  rw [Bool.and_eq_true] at h1
  have h2 := h1.1
  cases hf : o.frozen
  · rfl
  · rw [hf] at h2
    cases h2

theorem rawValB_rawRead (h : Heap) (a : Nat) (o : Obj) (hraw : rawHeapB h = true)
    (hget : h.get a = some (HObj.obj o)) (k : Key) : rawValB h (rawRead o k) = true := by
  unfold rawRead
  by_cases hc : o.arr = true ∧ k = Key.str "length"
  · rw [if_pos hc]
    rfl
  · rw [if_neg hc]
    cases hl : alook o.props k with
    | none => rfl
    | some v =>
      unfold rawHeapB at hraw
      rw [List.all_eq_true] at hraw
      have h1 := hraw _ (alook_mem _ _ _ hget)
      simp only [] at h1
      rw [Bool.and_eq_true, List.all_eq_true] at h1
      exact h1.2 _ (alook_mem _ _ _ hl)

theorem unwrapItemsWith_raw (f : Nat)
    (hPu : ∀ h v vis h' v' vis', rawHeapB h = true → rawValB h v = true →
      unwrap f h v vis = some (h', v', vis') → h' = h ∧ v' = v) :
    ∀ ks h a vis h' vis', rawHeapB h = true →
      unwrapItemsWith (fun h'' v'' vis'' => unwrap f h'' v'' vis'') h a ks vis =
        some (h', vis') → h' = h := by
  intro ks
  induction ks with
  | nil =>
    intro h a vis h' vis' hraw hu
    rw [unwrapItemsWith_nil] at hu
    simp only [Option.some.injEq, Prod.mk.injEq] at hu
    exact hu.1.symm
  | cons k rest ih =>
    intro h a vis h' vis' hraw hu
    cases hg : h.get a with
    | none =>
      simp only [unwrapItemsWith] at hu
      split at hu
      · rename_i o2 heq
        rw [hg] at heq
        cases heq
      · exact Option.noConfusion hu
    | some x =>
      cases x with
      | prox t =>
        simp only [unwrapItemsWith] at hu
        split at hu
        · rename_i o2 heq
          rw [hg] at heq
          cases heq
        · exact Option.noConfusion hu
      | obj o =>
        have hinv := unwrapItemsWith_cons_inv _ h a k rest vis o _ hg hu
        cases huw : unwrap f h (rawRead o k) vis with
        | none =>
          rw [huw] at hinv
          simp at hinv
        | some triple =>
          obtain ⟨h₁, v₁, vis₁⟩ := triple
          rw [huw] at hinv
          simp only [] at hinv
          obtain ⟨hh1, hv1⟩ := hPu h (rawRead o k) vis h₁ v₁ vis₁ hraw
            (rawValB_rawRead h a o hraw hg k) huw
          rw [if_pos hv1, hh1] at hinv
          exact ih h a vis₁ h' vis' hraw hinv

theorem unwrap_raw_zero :
    ∀ h v vis h' v' vis', rawHeapB h = true → rawValB h v = true →
      unwrap 0 h v vis = some (h', v', vis') → h' = h ∧ v' = v := by
  intro h v vis h' v' vis' hraw hv hu
  cases v with
  | undef =>
    rw [unwrap_undef] at hu
    simp only [Option.some.injEq, Prod.mk.injEq] at hu
    exact ⟨hu.1.symm, hu.2.1.symm⟩
  | num n =>
    rw [unwrap_num] at hu
    simp only [Option.some.injEq, Prod.mk.injEq] at hu
    exact ⟨hu.1.symm, hu.2.1.symm⟩
  | ref b =>
    cases hg : h.get b with
    | none =>
      rw [unwrap_dangling 0 h b vis hg] at hu
      simp only [Option.some.injEq, Prod.mk.injEq] at hu
      exact ⟨hu.1.symm, hu.2.1.symm⟩
    | some x =>
      cases x with
      | prox t =>
        rw [rawValB_prox_false h b t hg] at hv
        cases hv
      | obj o =>
        by_cases hvis : b ∈ vis
        · have hinj := unwrap_visited_inv 0 h b vis o _ hg hvis hu
          simp only [Option.some.injEq, Prod.mk.injEq] at hinj
          exact ⟨hinj.1.symm, hinj.2.1.symm⟩
        · have := unwrap_zero_inv h b vis o _ hg hvis hu
          exact Option.noConfusion this

theorem unwrap_raw_id :
    ∀ f h v vis h' v' vis', rawHeapB h = true → rawValB h v = true →
      unwrap f h v vis = some (h', v', vis') → h' = h ∧ v' = v := by
  intro f
  induction f with
  | zero => exact unwrap_raw_zero
  | succ f ih =>
    intro h v vis h' v' vis' hraw hv hu
    cases v with
    | undef =>
      rw [unwrap_undef] at hu
      simp only [Option.some.injEq, Prod.mk.injEq] at hu
      exact ⟨hu.1.symm, hu.2.1.symm⟩
    | num n =>
      rw [unwrap_num] at hu
      simp only [Option.some.injEq, Prod.mk.injEq] at hu
      exact ⟨hu.1.symm, hu.2.1.symm⟩
    | ref b =>
      cases hg : h.get b with
      | none =>
        rw [unwrap_dangling (f + 1) h b vis hg] at hu
        simp only [Option.some.injEq, Prod.mk.injEq] at hu
        exact ⟨hu.1.symm, hu.2.1.symm⟩
      | some x =>
        cases x with
        | prox t =>
          rw [rawValB_prox_false h b t hg] at hv
          cases hv
        | obj o =>
          by_cases hvis : b ∈ vis
          · have hinj := unwrap_visited_inv (f + 1) h b vis o _ hg hvis hu
            simp only [Option.some.injEq, Prod.mk.injEq] at hinj
            exact ⟨hinj.1.symm, hinj.2.1.symm⟩
          · have hfz := rawHeapB_frozen h b o hraw hg
            have hinv := unwrap_deep_inv f h b vis o _ hg hvis hfz hu
            cases hui : unwrapItemsWith (fun h'' v'' vis'' => unwrap f h'' v'' vis'') h b
                (if o.arr then (List.range o.len).map Key.idx
                 else o.props.map (fun p => p.1)) (b :: vis) with
            | none =>
              rw [hui] at hinv
              simp at hinv
            | some pr =>
              obtain ⟨h₂, vis₂⟩ := pr
              rw [hui] at hinv
              simp only [Option.some.injEq, Prod.mk.injEq] at hinv
              have hh2 : h₂ = h := unwrapItemsWith_raw f ih _ h b _ h₂ vis₂ hraw hui
              exact ⟨hinv.1.symm.trans hh2, hinv.2.1.symm⟩

theorem wrap_unwrap_fidelity (h : Heap) (a : Nat) (o : Obj) (h₁ : Heap) (p : Nat)
    (fuel : Nat) (vis : List Nat)
    (hget : h.get a = some (HObj.obj o)) (hfroz : o.frozen = false)
    (hmark : ∀ q, o.proxy = some q → h.get q = some (HObj.prox a))
    (hw : wrapV h a = some (h₁, p)) :
    unwrap fuel h₁ (Val.ref p) vis = some (h₁, Val.ref a, vis) := by
  have hpa : h₁.get p = some (HObj.prox a) := by
    unfold wrapV at hw
    rw [hget] at hw
    simp only [] at hw
    cases hpx : o.proxy with
    | some q =>
      rw [hpx] at hw
      simp only [] at hw
      simp only [Option.some.injEq, Prod.mk.injEq] at hw
      rw [← hw.1, ← hw.2]
      exact hmark q hpx
    | none =>
      rw [hpx] at hw
      simp only [] at hw
      rw [hfroz] at hw
      simp only [Bool.false_eq_true, if_false] at hw
      simp only [Option.some.injEq, Prod.mk.injEq] at hw
      obtain ⟨hh, hq⟩ := hw
      rw [← hh, ← hq]
      exact Heap.get_set_self _ _ _
  exact unwrap_prox fuel h₁ p a vis hpa

/-- C4: unwrap of a wrapped non-frozen node returns the exact original node
reference (even through cycles — the RAW back-reference short-circuits);
and unwrap is the identity on already-raw data: on a heap with no views and
nothing frozen, it returns heap and value unchanged. -/
theorem c4_unwrap_wrap_fidelity :
    (∀ h a o h₁ p fuel vis, h.get a = some (HObj.obj o) → o.frozen = false →
      (∀ q, o.proxy = some q → h.get q = some (HObj.prox a)) →
      wrapV h a = some (h₁, p) →
      unwrap fuel h₁ (Val.ref p) vis = some (h₁, Val.ref a, vis)) ∧
    (∀ f h v vis h' v' vis', rawHeapB h = true → rawValB h v = true →
      unwrap f h v vis = some (h', v', vis') → h' = h ∧ v' = v) :=
  ⟨fun h a o h₁ p fuel vis hget hfroz hmark hw =>
      wrap_unwrap_fidelity h a o h₁ p fuel vis hget hfroz hmark hw,
    unwrap_raw_id⟩

/-- A cyclic raw node: its property s refers to the node itself. -/
def objCyc : Obj :=
  { arr := false, frozen := false, len := 0
    props := [(Key.str "s", Val.ref 0)], proxy := none, cells := none }

def heapCyc : Heap := ⟨[(0, HObj.obj objCyc)]⟩

def heapCycW : Heap :=
  ⟨[(0, HObj.obj { arr := false, frozen := false, len := 0
                   props := [(Key.str "s", Val.ref 0)], proxy := some 1, cells := none }),
    (1, HObj.prox 0)]⟩

theorem c4_unwrap_wrap_fidelity_witness :
    wrapV heapCyc 0 = some (heapCycW, 1) ∧
      unwrap 7 heapCycW (Val.ref 1) [] = some (heapCycW, Val.ref 0, []) ∧
      rawHeapB heapCyc = true ∧
      unwrap 2 heapCyc (Val.ref 0) [] = some (heapCyc, Val.ref 0, [0]) ∧
      (heapCyc = heapCyc ∧ Val.ref 0 = Val.ref 0) :=
  ⟨by decide,
    c4_unwrap_wrap_fidelity.1 heapCyc 0 objCyc heapCycW 1 7 [] (by decide) (by decide)
      (fun q hq => Option.noConfusion hq) (by decide),
    by decide,
    by decide,
    c4_unwrap_wrap_fidelity.2 2 heapCyc (Val.ref 0) [] heapCyc (Val.ref 0) [0]
      (by decide) (by decide) (by decide)⟩

/-! C8 support: createStore on a frozen plain object with primitive values. -/

def nonRefValB : Val → Bool
  | Val.ref _ => false
  | _ => true

theorem unwrap_nonref (fuel : Nat) (h : Heap) (v : Val) (vis : List Nat)
    (hv : nonRefValB v = true) : unwrap fuel h v vis = some (h, v, vis) := by
  cases v with
  | undef => exact unwrap_undef fuel h vis
  | num n => exact unwrap_num fuel h n vis
  | ref b => cases hv

theorem unwrapItemsWith_nonref (fuel : Nat) :
    ∀ (ks : List Key) (h : Heap) (c : Nat) (oc : Obj) (vis : List Nat),
      h.get c = some (HObj.obj oc) → oc.arr = false →
      (∀ q ∈ oc.props, nonRefValB q.2 = true) →
      unwrapItemsWith (fun h' v' vis' => unwrap fuel h' v' vis') h c ks vis =
        some (h, vis) := by
  intro ks
  induction ks with
  | nil =>
    intro h c oc vis hg harr hprim
    exact unwrapItemsWith_nil _ h c vis
  | cons k rest ih =>
    intro h c oc vis hg harr hprim
    have hvr : nonRefValB (rawRead oc k) = true := by
      unfold rawRead
      rw [if_neg (fun hh => by rw [harr] at hh; exact Bool.noConfusion hh.1)]
      cases hl : alook oc.props k with
      | none => rfl
      | some v => exact hprim _ (alook_mem _ _ _ hl)
    have hchild := unwrap_nonref fuel h (rawRead oc k) vis hvr
    have hinv := unwrapItemsWith_cons_inv (fun h' v' vis' => unwrap fuel h' v' vis')
      h c k rest vis oc _ hg rfl
    simp only [] at hinv
    rw [hchild] at hinv
    simp only [] at hinv
    rw [if_pos trivial] at hinv
    rw [← hinv]
    exact ih h c oc vis hg harr hprim

theorem setProperty_plain_total (s : St) (c : Nat) (k : Key) (v : Val) (del : Bool)
    (oc : Obj) (hgc : s.heap.get c = some (HObj.obj oc))
    (hfz : oc.frozen = false) (harr : oc.arr = false)
    (hpm : protoMember k = false) :
    ∃ oc', setProperty s c k v del = some { s with heap := s.heap.set c (HObj.obj oc') } ∧
      oc'.frozen = false ∧ oc'.arr = false := by
  by_cases hid : del = false ∧ rawRead oc k = v
  · refine ⟨oc, ?_, hfz, harr⟩
    obtain ⟨hd, hv⟩ := hid
    subst hd
    rw [setProperty_noop_of_idem s c k v oc hgc hv]
    have hh : s.heap.set c (HObj.obj oc) = s.heap := by
      show (⟨aset s.heap.mem c (HObj.obj oc)⟩ : Heap) = s.heap
      rw [aset_of_lookup_eq s.heap.mem c (HObj.obj oc) hgc]
    rw [hh]
  · cases del with
    | true =>
      have hmut : (if true then rawDelete oc k else rawWrite oc k v) =
          some { oc with props := aerase oc.props k } := by
        simp only [if_true]
        unfold rawDelete
        rw [if_neg (fun hh => by rw [harr] at hh; exact Bool.noConfusion hh.1),
          if_neg (fun hh => by rw [hfz] at hh; exact Bool.noConfusion hh.1)]
      exact ⟨_, setProperty_eq s c k v true oc _ _ hgc hid hmut
        (ensureRegistry_of_not_frozen _ hfz) (Or.inl hpm), hfz, harr⟩
    | false =>
      have hmut : (if false then rawDelete oc k else rawWrite oc k v) =
          some { oc with props := aset oc.props k v } := by
        simp only [if_false, Bool.false_eq_true]
        unfold rawWrite
        rw [if_neg (fun hh => by rw [hfz] at hh; exact Bool.noConfusion hh),
          if_neg (fun hh => by rw [harr] at hh; exact Bool.noConfusion hh)]
      exact ⟨_, setProperty_eq s c k v false oc _ _ hgc hid hmut
        (ensureRegistry_of_not_frozen _ hfz) (Or.inl hpm), hfz, harr⟩

theorem applyOp_c8 (s : St) (a c p : Nat) (o : Obj) (op : MutOp)
    (hga : s.heap.get a = some (HObj.obj o)) (hofz : o.frozen = true)
    (hc : ∃ oc, s.heap.get c = some (HObj.obj oc) ∧ oc.frozen = false ∧ oc.arr = false)
    (hgp : s.heap.get p = some (HObj.prox c))
    (hw : s.writing = true)
    (hpm : protoMember op.key = false) :
    ∃ s', applyOp s p op = some s' ∧
      s'.heap.get a = some (HObj.obj o) ∧
      (∃ oc', s'.heap.get c = some (HObj.obj oc') ∧ oc'.frozen = false ∧ oc'.arr = false) ∧
      s'.heap.get p = some (HObj.prox c) ∧ s'.writing = true := by
  obtain ⟨oc, hgc, hfz, harr⟩ := hc
  have hac : a ≠ c := by
    intro he
    have hh := hgc
    rw [← he, hga] at hh
    injection hh with hh
    rw [← HObj.obj.inj hh, hofz] at hfz
    cases hfz
  have hpc : p ≠ c := by
    intro he
    rw [he, hgc] at hgp
    cases hgp
  cases op with
  | assign k n =>
    obtain ⟨oc', hsp, hfz', harr'⟩ := setProperty_plain_total s c k (Val.num n) false oc
      hgc hfz harr hpm
    have hsp' : setProperty { s with heap := s.heap } c k (Val.num n) false =
        some { s with heap := s.heap.set c (HObj.obj oc') } := hsp
    have htrap : trapSet 1 s c k (Val.num n) =
        some ({ s with heap := s.heap.set c (HObj.obj oc') }, true) := by
      unfold trapSet
      rw [if_pos hw, unwrap_num]
      simp only []
      rw [hsp']
    have happ : applyOp s p (MutOp.assign k n) =
        some { s with heap := s.heap.set c (HObj.obj oc') } := by
      unfold applyOp viewSet
      rw [hgp]
      simp only []
      rw [htrap]
    refine ⟨_, happ, ?_, ⟨oc', Heap.get_set_self _ _ _, hfz', harr'⟩, ?_, hw⟩
    · rw [Heap.get_set_ne _ _ _ _ hac]
      exact hga
    · rw [Heap.get_set_ne _ _ _ _ hpc]
      exact hgp
  | remove k =>
    obtain ⟨oc', hsp, hfz', harr'⟩ := setProperty_plain_total s c k Val.undef true oc
      hgc hfz harr hpm
    have htrap : trapDelete s c k =
        some ({ s with heap := s.heap.set c (HObj.obj oc') }, true) := by
      unfold trapDelete
      rw [if_pos hw, hsp]
    have happ : applyOp s p (MutOp.remove k) =
        some { s with heap := s.heap.set c (HObj.obj oc') } := by
      unfold applyOp viewDelete
      rw [hgp]
      simp only []
      rw [htrap]
    refine ⟨_, happ, ?_, ⟨oc', Heap.get_set_self _ _ _, hfz', harr'⟩, ?_, hw⟩
    · rw [Heap.get_set_ne _ _ _ _ hac]
      exact hga
    · rw [Heap.get_set_ne _ _ _ _ hpc]
      exact hgp

theorem runOps_c8 (a c p : Nat) (o : Obj) (hofz : o.frozen = true) :
    ∀ (ops : List MutOp), (∀ op ∈ ops, protoMember op.key = false) →
      ∀ (s : St), s.heap.get a = some (HObj.obj o) →
      (∃ oc, s.heap.get c = some (HObj.obj oc) ∧ oc.frozen = false ∧ oc.arr = false) →
      s.heap.get p = some (HObj.prox c) → s.writing = true →
      ∃ s₂, runOps s p ops = some s₂ ∧ s₂.heap.get a = some (HObj.obj o) := by
  intro ops
  induction ops with
  | nil =>
    intro hops s hga hc hgp hw
    exact ⟨s, rfl, hga⟩
  | cons op rest ih =>
    intro hops s hga hc hgp hw
    obtain ⟨s', happ, hga', hc', hgp', hw'⟩ := applyOp_c8 s a c p o op hga hofz hc hgp hw
      (hops op (List.mem_cons_self op rest))
    obtain ⟨s₂, hr, hga₂⟩ := ih (fun q hq => hops q (List.mem_cons_of_mem op hq))
      s' hga' hc' hgp' hw'
    refine ⟨s₂, ?_, hga₂⟩
    unfold runOps
    rw [happ]
    simp only []
    exact hr

theorem mutateStore_c8 (s : St) (a c p : Nat) (o : Obj)
    (hga : s.heap.get a = some (HObj.obj o)) (hofz : o.frozen = true)
    (hc : ∃ oc, s.heap.get c = some (HObj.obj oc) ∧ oc.frozen = false ∧ oc.arr = false)
    (hgp : s.heap.get p = some (HObj.prox c)) :
    ∀ ops, (∀ op ∈ ops, protoMember op.key = false) →
      ∃ st₂, mutateStore s p ops = some st₂ ∧ st₂.heap.get a = some (HObj.obj o) := by
  intro ops hops
  obtain ⟨s₂, hr, hga₂⟩ := runOps_c8 a c p o hofz ops hops { s with writing := true }
    hga hc hgp rfl
  refine ⟨{ s₂ with writing := false }, ?_, hga₂⟩
  unfold mutateStore
  rw [hr]

/-- C8 (amended): createStore over a frozen plain object of primitive
values substitutes a private copy: the view targets a fresh unfrozen copy,
the caller's frozen object is untouched, and every sequence of mutator
operations whose keys do not name Object.prototype members succeeds without
failure and never changes the original frozen object.  (An operation keyed
by an Object.prototype member name throws — see the counterexample.) -/
theorem c8_frozen_input_private_copy (st : St) (a : Nat) (o : Obj) (fuel : Nat)
    (hget : st.heap.get a = some (HObj.obj o))
    (hfroz : o.frozen = true) (harr : o.arr = false)
    (hprim : ∀ q ∈ o.props, nonRefValB q.2 = true) :
    ∃ c p st', createStore (fuel + 1) st a = some (st', p) ∧
      c ≠ a ∧ st'.heap.get p = some (HObj.prox c) ∧
      st'.heap.get a = some (HObj.obj o) ∧
      ∀ ops, (∀ op ∈ ops, protoMember op.key = false) →
        ∃ st₂, mutateStore st' p ops = some st₂ ∧
          st₂.heap.get a = some (HObj.obj o) := by
  have hinv := unwrap_frozen_inv fuel st.heap a [] o _ hget (by simp) hfroz rfl
  rw [harr] at hinv
  simp only [Bool.false_eq_true, if_false] at hinv
  have hgcopy : (st.heap.set st.heap.fresh (HObj.obj { arr := false, frozen := false, len := o.len, props := o.props, proxy := none, cells := none })).get st.heap.fresh = some (HObj.obj { arr := false, frozen := false, len := o.len, props := o.props, proxy := none, cells := none }) :=
    Heap.get_set_self _ _ _
  have hitems := unwrapItemsWith_nonref fuel (o.props.map (fun q => q.1))
    (st.heap.set st.heap.fresh (HObj.obj { arr := false, frozen := false, len := o.len, props := o.props, proxy := none, cells := none }))
    st.heap.fresh { arr := false, frozen := false, len := o.len, props := o.props, proxy := none, cells := none } [] hgcopy rfl hprim
  rw [hitems] at hinv
  simp only [] at hinv
  have huw := hinv.symm
  have hane : a ≠ st.heap.fresh := ne_fresh_of_get_some st.heap a _ hget
  have hga₁ : (st.heap.set st.heap.fresh (HObj.obj { arr := false, frozen := false, len := o.len, props := o.props, proxy := none, cells := none })).get a = some (HObj.obj o) := by
    rw [Heap.get_set_ne _ _ _ _ hane]
    exact hget
  set heapC : Heap := st.heap.set st.heap.fresh (HObj.obj { arr := false, frozen := false, len := o.len, props := o.props, proxy := none, cells := none }) with hheapC
  have hcne : st.heap.fresh ≠ heapC.fresh := ne_fresh_of_get_some heapC _ _ hgcopy
  have hane₂ : a ≠ heapC.fresh := ne_fresh_of_get_some heapC a _ hga₁
  have hwv : wrapV heapC st.heap.fresh =
      some ((heapC.set st.heap.fresh (HObj.obj { arr := false, frozen := false, len := o.len, props := o.props, proxy := some heapC.fresh, cells := none })).set heapC.fresh (HObj.prox st.heap.fresh), heapC.fresh) := by
    simp only [wrapV, hgcopy]
    rfl
  have hcs : createStore (fuel + 1) st a =
      some ({ st with heap := (heapC.set st.heap.fresh (HObj.obj { arr := false, frozen := false, len := o.len, props := o.props, proxy := some heapC.fresh, cells := none })).set heapC.fresh (HObj.prox st.heap.fresh) }, heapC.fresh) := by
    unfold createStore
    rw [huw]
    simp only []
    rw [hwv]
  refine ⟨st.heap.fresh, heapC.fresh, _, hcs, fun he => hane he.symm, ?_, ?_, ?_⟩
  · exact Heap.get_set_self _ _ _
  · rw [Heap.get_set_ne _ _ _ _ hane₂, Heap.get_set_ne _ _ _ _ hane]
    exact hga₁
  · have hga₃ : ((heapC.set st.heap.fresh (HObj.obj { arr := false, frozen := false, len := o.len, props := o.props, proxy := some heapC.fresh, cells := none })).set heapC.fresh (HObj.prox st.heap.fresh)).get a = some (HObj.obj o) := by
      rw [Heap.get_set_ne _ _ _ _ hane₂, Heap.get_set_ne _ _ _ _ hane]
      exact hga₁
    have hgc₃ : ((heapC.set st.heap.fresh (HObj.obj { arr := false, frozen := false, len := o.len, props := o.props, proxy := some heapC.fresh, cells := none })).set heapC.fresh (HObj.prox st.heap.fresh)).get st.heap.fresh = some (HObj.obj { arr := false, frozen := false, len := o.len, props := o.props, proxy := some heapC.fresh, cells := none }) := by
      rw [Heap.get_set_ne _ _ _ _ hcne, Heap.get_set_self]
    have hgp₃ : ((heapC.set st.heap.fresh (HObj.obj { arr := false, frozen := false, len := o.len, props := o.props, proxy := some heapC.fresh, cells := none })).set heapC.fresh (HObj.prox st.heap.fresh)).get heapC.fresh = some (HObj.prox st.heap.fresh) :=
      Heap.get_set_self _ _ _
    exact mutateStore_c8
      { st with heap := (heapC.set st.heap.fresh (HObj.obj { arr := false, frozen := false, len := o.len, props := o.props, proxy := some heapC.fresh, cells := none })).set heapC.fresh (HObj.prox st.heap.fresh) }
      a st.heap.fresh heapC.fresh o hga₃ hfroz ⟨_, hgc₃, rfl, rfl⟩ hgp₃

def objFroz : Obj :=
  { arr := false, frozen := true, len := 0, props := [(Key.str "a", Val.num 1)], proxy := none, cells := none }

def stFroz : St := ⟨⟨[(0, HObj.obj objFroz)]⟩, false, false, []⟩

/-- The private copy of the frozen input, with the cached view marker. -/
def objFrozCopy : Obj :=
  { arr := false, frozen := false, len := 0, props := [(Key.str "a", Val.num 1)], proxy := some 2, cells := none }

/-- The state after createStore over the frozen sample input: the original
at 0, the unfrozen private copy at 1, the view proxy at 2. -/
def stFrozStore : St :=
  ⟨⟨[(0, HObj.obj objFroz), (1, HObj.obj objFrozCopy), (2, HObj.prox 1)]⟩, false, false, []⟩

/-- C8 counterexample: the mutator of a store over Object.freeze({a:1}) can
throw — assigning the key "toString" makes getDataNode return the inherited
Object.prototype.toString, on which node.$(...) is not callable.  This
refutes the claim that subsequent mutations through the mutator never
throw. -/
theorem c8_counterexample_mutator_can_throw :
    createStore 1 stFroz 0 = some (stFrozStore, 2) ∧
      mutateStore stFrozStore 2 [MutOp.assign (Key.str "toString") 0] = none := by
  constructor <;> decide

theorem c8_frozen_input_private_copy_witness :
    stFroz.heap.get 0 = some (HObj.obj objFroz) ∧
    objFroz.frozen = true ∧ objFroz.arr = false ∧
    (∀ q ∈ objFroz.props, nonRefValB q.2 = true) ∧
    ∃ c p st', createStore 1 stFroz 0 = some (st', p) ∧
      c ≠ 0 ∧ st'.heap.get p = some (HObj.prox c) ∧
      st'.heap.get 0 = some (HObj.obj objFroz) ∧
      ∀ ops, (∀ op ∈ ops, protoMember op.key = false) →
        ∃ st₂, mutateStore st' p ops = some st₂ ∧
          st₂.heap.get 0 = some (HObj.obj objFroz) :=
  ⟨by decide, rfl, rfl, by decide,
   c8_frozen_input_private_copy stFroz 0 objFroz 0 (by decide) rfl rfl (by decide)⟩

end ReactiveStore
